import Mathlib

/-!
A shallow embedding of the Wordle solver (`src/main.rs`) and proofs about it.

The embedding mirrors the Rust source:
* `score` is the two-pass feedback scorer (`fn score`), with `CROSSED_OUT = 0`;
* `rankedGuesses` is the candidate ranker built inside `solve` (the
  `ranked_guesses` vector), with the heuristic cost `mkRat sum groups`
  standing for the exact value of `sum as f64 / groups.len() as f64`
  (the comparison of these averages is modelled in exact rational
  arithmetic; floating-point rounding is monotone, so the modelled order
  agrees with the `NotNan<f64>` order on all realistically sized pools);
* `solveF`/`solve` is `fn solve`, written with a structural fuel argument so
  that the definition computes by `rfl` (fuel `8` can never run out before
  the `depth >= 7` cutoff fires);
* `Tree` is `struct Tree`, with `children` kept as an association list whose
  order stands for the iteration order of the `HashMap`.  Since Rust's
  `HashMap` iteration order is unspecified, `solve` takes an extra
  `hashOrder` parameter that permutes the canonical first-occurrence key
  order at every node; theorems about the program quantify over all
  permutation-producing `hashOrder` arguments (`Admissible`).
* Rust's `assert!` failures (panics) are modelled as `Except.error ()`,
  while the `Option<Tree>` result of `solve` is the `Except.ok` payload.
-/

namespace Wordle

/-- Five-symbol words: `type Word = [u8; 5]`, one `Nat` per byte. -/
abbrev Word := List Nat

/-- Feedback patterns: `type Colors = [u8; 5]`; entries are the bytes of
the characters `b` (98), `y` (121) and `g` (103). -/
abbrev Colors := List Nat

/-- `const CROSSED_OUT: u8 = 0;` -/
def CROSSED_OUT : Nat := 0

/-- First pass of `fn score`: mark exact matches green and cross out both
symbols.  Returns `(colors, guess', answer')`, the colors so far and the two
words with matched positions overwritten by `CROSSED_OUT`. -/
def pass1 : List Nat → List Nat → List Nat × List Nat × List Nat
  | g :: gs, a :: as =>
    let r := pass1 gs as
    if g = a then (103 :: r.1, CROSSED_OUT :: r.2.1, CROSSED_OUT :: r.2.2)
    else (98 :: r.1, g :: r.2.1, a :: r.2.2)
  | _, _ => ([], [], [])

/-- Second pass of `fn score`: for each not-crossed-out guess symbol, search
the (partially crossed out) answer for its first remaining occurrence
(`answer.iter().position(..)`), mark yellow and cross out that occurrence.
Returns the final colors together with the final answer state. -/
def pass2 : List Nat → List Nat → List Nat → List Nat × List Nat
  | g :: gs, c :: cs, ans =>
    if g ≠ CROSSED_OUT then
      match ans.findIdx? (fun a => a = g) with
      | some j =>
        let r := pass2 gs cs (ans.set j CROSSED_OUT)
        (121 :: r.1, r.2)
      | none =>
        let r := pass2 gs cs ans
        (c :: r.1, r.2)
    else
      let r := pass2 gs cs ans
      (c :: r.1, r.2)
  | _, cs, ans => (cs, ans)

/-- `fn score(mut guess: Word, mut answer: Word) -> Word`. -/
def score (guess answer : Word) : Colors :=
  let r := pass1 guess answer
  (pass2 r.2.1 r.1 r.2.2).1

/-- The all-exact pattern `[b'g'; 5]`. -/
def green5 : Colors := [103, 103, 103, 103, 103]


/-- Keep the first occurrence of every element: the canonical enumeration of
a `HashMap`'s key set, before an arbitrary iteration order is applied. -/
def firstOccsAux (seen : List Colors) : List Colors → List Colors
  | [] => []
  | c :: cs => if c ∈ seen then firstOccsAux seen cs else c :: firstOccsAux (c :: seen) cs

/-- The distinct colors in order of first occurrence. -/
def firstOccs (l : List Colors) : List Colors := firstOccsAux [] l

/-- Lexicographic comparison of byte sequences: the `Ord` instance of
`[u8; 5]`, used by `sort_unstable` to order equal-average pairs. -/
def wordLE : Word → Word → Bool
  | [], _ => true
  | _ :: _, [] => false
  | x :: xs, y :: ys => decide (x < y) || (decide (x = y) && wordLE xs ys)

/-- The ranking cost of a guess against the current answer pool:
`sum` is `groups.values().sum()` minus the size of the all-exact group,
and the cost is `sum / groups.len()` as an exact rational. -/
def rankCost (answers : List Word) (guess : Word) : ℚ :=
  let colors := answers.map (score guess)
  let keys := firstOccs colors
  let sum := (keys.map (fun c => colors.count c)).sum - colors.count green5
  mkRat sum keys.length

/-- The order on `(average, guess)` pairs: the `Ord` instance of
`(NotNan<f64>, Word)`, lexicographic on the pair. -/
def rankR (x y : ℚ × Word) : Prop :=
  x.1 < y.1 ∨ (x.1 = y.1 ∧ wordLE x.2 y.2 = true)

instance : DecidableRel rankR := fun x y => by unfold rankR; infer_instance

/-- `ranked_guesses.sort_unstable()` followed by extraction of the words.
`rankR` is antisymmetric on distinct pairs, so every correct sort —
including Rust's unstable one — produces this exact sequence. -/
def rankedGuesses (guesses answers : List Word) : List Word :=
  (List.insertionSort rankR (guesses.map (fun g => (rankCost answers g, g)))).map Prod.snd

/-- `struct Params` (clap-parsed).  `starting_word` keeps the raw bytes of
the `Option<String>`; `to_word` length-checks them at the use site. -/
structure Params where
  n_guesses : Nat
  answers_only : Bool
  starting_word : Option (List Nat)

/-- `fn to_word`: `try_into().unwrap()` — a panic unless exactly 5 bytes. -/
def toWordE (w : List Nat) : Except Unit Word :=
  if w.length = 5 then Except.ok w else Except.error ()

/-- The candidate list `top_guesses` of `fn solve`. -/
def topGuesses (params : Params) (depth : Nat) (guesses answers : List Word) :
    Except Unit (List Word) :=
  if depth = 0 ∧ params.starting_word.isSome then
    match params.starting_word with
    | some w =>
      match toWordE w with
      | Except.ok w2 => Except.ok [w2]
      | Except.error e => Except.error e
    | none => Except.error ()
  else
    Except.ok ((rankedGuesses guesses answers).take params.n_guesses)

/-- `struct Tree`.  `children` is the `HashMap<Colors, Tree>` as an
association list in the map's iteration order. -/
inductive Tree : Type where
  | node (guess : Word) (total_guesses : Nat) (max_guesses : Nat)
      (children : List (Colors × Tree)) : Tree

def Tree.guess : Tree → Word
  | .node g _ _ _ => g

def Tree.total_guesses : Tree → Nat
  | .node _ t _ _ => t

def Tree.max_guesses : Tree → Nat
  | .node _ _ m _ => m

def Tree.children : Tree → List (Colors × Tree)
  | .node _ _ _ ch => ch

/-- `Tree::leaf`. -/
def Tree.leaf (guess : Word) : Tree := Tree.node guess 1 1 []

/-- `Tree::write`: the serialization of a tree, as the list of root-to-leaf
guess sequences in children-iteration order (each produced line is the
comma-separated sequence `w1,w2,...,wk`). -/
def Tree.write : Tree → List (List Word)
  | .node g _ _ ch =>
    if ch.isEmpty then [[g]]
    else ch.attach.flatMap (fun p => (Tree.write p.1.2).map (fun line => g :: line))
termination_by t => sizeOf t
decreasing_by
  have h := List.sizeOf_lt_of_mem p.2
  cases hp : p.1 with
  | mk c s =>
    rw [hp] at h
    simp only [Tree.node.sizeOf_spec, Prod.mk.sizeOf_spec] at h ⊢
    omega

/-- Sequential effectful map over a list: the iteration of a Rust loop any
step of which may panic. -/
def exceptMapM {α β : Type} (f : α → Except Unit β) : List α → Except Unit (List β)
  | [] => Except.ok []
  | x :: xs =>
    match f x with
    | Except.error e => Except.error e
    | Except.ok y =>
      match exceptMapM f xs with
      | Except.error e => Except.error e
      | Except.ok ys => Except.ok (y :: ys)

/-- The loop `for (&score, child) in groups.keys().zip(children)`: the
candidate is discarded (`let child = child?`) as soon as any group has no
subtree. -/
def buildChildren : List (Colors × Option Tree) → Option (List (Colors × Tree))
  | [] => some []
  | (_, none) :: _ => none
  | (c, some t) :: rest =>
    match buildChildren rest with
    | none => none
    | some ch => some ((c, t) :: ch)

/-- `tree.total_guesses`: starts at `answers.len()`; every child except the
all-exact one adds its own total. -/
def nodeTotal (nAnswers : Nat) (children : List (Colors × Tree)) : Nat :=
  nAnswers + ((children.filter (fun p => p.1 ≠ green5)).map (fun p => p.2.total_guesses)).sum

/-- `tree.max_guesses`: starts at `0`, then `max(child.max_guesses + 1)`
over the children. -/
def nodeMax (children : List (Colors × Tree)) : Nat :=
  children.foldl (fun m p => Nat.max m (p.2.max_guesses + 1)) 0

/-- Assemble one candidate's tree from the per-group results. -/
def buildCandidate (guess : Word) (nAnswers : Nat) (kids : List (Colors × Option Tree)) :
    Option Tree :=
  match buildChildren kids with
  | none => none
  | some ch => some (Tree.node guess (nodeTotal nAnswers ch) (nodeMax ch) ch)

/-- `min_by_key(|tree| tree.total_guesses)`: the first element attaining the
minimum is kept. -/
def minByTotal : List Tree → Option Tree
  | [] => none
  | t :: ts =>
    some (ts.foldl (fun best u => if u.total_guesses < best.total_guesses then u else best) t)

/-- One recursive call of the candidate loop: solve the feedback group of
`c` and pair the result with its key. -/
def recurKey (recur : List Word → Except Unit (Option Tree)) (guess : Word)
    (answers : List Word) (c : Colors) : Except Unit (Colors × Option Tree) :=
  match recur (answers.filter (fun a => score guess a = c)) with
  | Except.error e => Except.error e
  | Except.ok r => Except.ok (c, r)

/-- One candidate guess inside `fn solve`: partition the answers by feedback
(`groups`), recurse into every group — in the `HashMap` iteration order
`hashOrder` — and assemble the candidate's tree. -/
def solveCandidate (recur : List Word → Except Unit (Option Tree))
    (hashOrder : List Colors → List Colors) (guess : Word) (answers : List Word) :
    Except Unit (Option Tree) :=
  match exceptMapM (recurKey recur guess answers)
      (hashOrder (firstOccs (answers.map (score guess)))) with
  | Except.error e => Except.error e
  | Except.ok kids => Except.ok (buildCandidate guess answers.length kids)

/-- `fn solve(params, depth, guesses, answers)`.  The structural fuel only
exists to make the recursion computable by `rfl`; it never runs out before
the `depth >= 7` cutoff when instantiated by `solve` below. -/
def solveF : Nat → Params → (List Colors → List Colors) → Nat → List Word → List Word →
    Except Unit (Option Tree)
  | 0, _, _, _, _, _ => Except.error ()
  | fuel+1, params, hashOrder, depth, guesses, answers =>
    if answers.isEmpty then Except.error ()
    else if 7 ≤ depth then Except.ok none
    else
      match answers with
      | [onlyAnswer] => Except.ok (some (Tree.leaf onlyAnswer))
      | _ =>
        match topGuesses params depth guesses answers with
        | Except.error e => Except.error e
        | Except.ok tops =>
          if tops.isEmpty then Except.error ()
          else
            match exceptMapM
                (fun g => solveCandidate (solveF fuel params hashOrder (depth + 1) guesses)
                    hashOrder g answers) tops with
            | Except.error e => Except.error e
            | Except.ok cands => Except.ok (minByTotal (cands.filterMap id))

/-- `fn solve` as called: fuel `8` suffices at every depth. -/
def solve (params : Params) (hashOrder : List Colors → List Colors) (depth : Nat)
    (guesses answers : List Word) : Except Unit (Option Tree) :=
  solveF 8 params hashOrder depth guesses answers

/-- The candidate trees `solve` chooses among at one node: the successful
results of the `filter_map` over `top_guesses`. -/
def candidateResults (params : Params) (hashOrder : List Colors → List Colors) (depth : Nat)
    (guesses answers : List Word) : Except Unit (List Tree) :=
  match topGuesses params depth guesses answers with
  | Except.error e => Except.error e
  | Except.ok tops =>
    if tops.isEmpty then Except.error ()
    else
      match exceptMapM
          (fun g => solveCandidate (solve params hashOrder (depth + 1) guesses)
              hashOrder g answers) tops with
      | Except.error e => Except.error e
      | Except.ok cands => Except.ok (cands.filterMap id)

/-- The `hashOrder` arguments modelling realizable `HashMap` iteration
orders: each key list is enumerated in some order, i.e. permuted. -/
def Admissible (hashOrder : List Colors → List Colors) : Prop :=
  ∀ l : List Colors, (hashOrder l).Perm l

/-- Pass 1 as the specification words it (§4.1), independent of the
implementation: consumption is an `Option` mask, not a `CROSSED_OUT`
sentinel.  Returns the colors after pass 1 and the masked answer. -/
def specPass1 : List Nat → List Nat → List Nat × List (Option Nat)
  | g :: gs, a :: as =>
    let r := specPass1 gs as
    if g = a then (103 :: r.1, none :: r.2) else (98 :: r.1, some a :: r.2)
  | _, _ => ([], [])

/-- Consume the first unconsumed occurrence of `x` in the masked answer,
scanning positions in increasing order; `none` when no occurrence is left. -/
def specConsume (x : Nat) : List (Option Nat) → Option (List (Option Nat))
  | [] => none
  | some a :: rest =>
    if a = x then some (none :: rest)
    else (specConsume x rest).map (fun r => some a :: r)
  | none :: rest => (specConsume x rest).map (fun r => none :: r)

/-- Pass 2 as the specification words it: for every position not already
marked Exact, mark Present if the (original) guess symbol still has an
unconsumed occurrence, consuming it. -/
def specPass2 : List Nat → List Nat → List (Option Nat) → List Nat
  | g :: gs, c :: cs, ans =>
    if c ≠ 103 then
      match specConsume g ans with
      | some ans2 => 121 :: specPass2 gs cs ans2
      | none => c :: specPass2 gs cs ans
    else c :: specPass2 gs cs ans
  | _, cs, _ => cs

/-- The scorer as described by the specification text, used only to compare
against the implementation's `score`. -/
def scoreSpec (guess answer : List Nat) : List Nat :=
  let r := specPass1 guess answer
  specPass2 guess r.1 r.2

/-- Number of positions at which two words agree (proof-side helper). -/
def exactCount : List Nat → List Nat → Nat
  | g :: gs, a :: as => (if g = a then 1 else 0) + exactCount gs as
  | _, _ => 0

/-- The number of positions whose guess symbol is `x` and whose label is
Exact or Present. -/
def labelCount (x : Nat) (guess colors : List Nat) : Nat :=
  ((guess.zip colors).filter (fun p => decide (p.1 = x) && (decide (p.2 = 103) || decide (p.2 = 121)))).length

/-- A well-formed `--starting-word` argument: absent, or exactly 5 bytes
(otherwise `to_word` panics at depth 0). -/
def StartOK (params : Params) : Prop :=
  params.starting_word = none ∨ ∃ w, params.starting_word = some w ∧ w.length = 5

/-- The shape invariant of every tree `solve` can return at `depth` for the
answer pool `pool`: leaves come from singleton pools below the depth bound;
internal nodes carry one child per feedback group of the pool (in some
enumeration order of the distinct feedbacks), their statistics are computed
by `nodeTotal`/`nodeMax`, and each child was produced at `depth + 1` from
its feedback group. -/
inductive Produced : Nat → List Word → Tree → Prop where
  | leaf (depth : Nat) (a : Word) (hd : depth < 7) : Produced depth [a] (Tree.leaf a)
  | node (depth : Nat) (pool : List Word) (g : Word) (ch : List (Colors × Tree))
      (hd : depth < 7) (hne : ch ≠ []) (hpool : 2 ≤ pool.length)
      (hkeys : (ch.map Prod.fst).Perm (firstOccs (pool.map (score g))))
      (hch : ∀ p ∈ ch, Produced (depth + 1) (pool.filter (fun a => score g a = p.1)) p.2) :
      Produced depth pool (Tree.node g (nodeTotal pool.length ch) (nodeMax ch) ch)

/-- The tree-statistics invariant of §3, stated the way the specification
words it: a leaf carries `total_guesses = max_guesses = 1`; an internal node
has `max_guesses = 1 + max` over its children and `total_guesses = |pool| +`
the sum of the non-all-exact children's totals, and each child satisfies the
invariant for its feedback group of the pool. -/
inductive StatsOK : List Word → Tree → Prop where
  | leaf (pool : List Word) (g : Word) : StatsOK pool (Tree.node g 1 1 [])
  | node (pool : List Word) (g : Word) (tot mx : Nat) (ch : List (Colors × Tree))
      (hne : ch ≠ [])
      (hmax : mx = 1 + (ch.map (fun p => p.2.max_guesses)).foldl Nat.max 0)
      (htot : tot = pool.length +
        ((ch.filter (fun p => p.1 ≠ green5)).map (fun p => p.2.total_guesses)).sum)
      (hch : ∀ p ∈ ch, StatsOK (pool.filter (fun a => score g a = p.1)) p.2) :
      StatsOK pool (Tree.node g tot mx ch)

/-- Equality of trees as feedback-keyed mappings: same guess and statistics,
children keyed by the same (duplicate-free) feedback set, and recursively
equivalent subtrees under each key.  This is equality of the Rust `Tree`
values, which do not observe the `HashMap` iteration order. -/
inductive TEquiv : Tree → Tree → Prop where
  | mk (g : Word) (tot mx : Nat) (ch1 ch2 : List (Colors × Tree))
      (hperm : (ch1.map Prod.fst).Perm (ch2.map Prod.fst))
      (hnd : (ch1.map Prod.fst).Nodup)
      (hch : ∀ c s1 s2, (c, s1) ∈ ch1 → (c, s2) ∈ ch2 → TEquiv s1 s2) :
      TEquiv (Tree.node g tot mx ch1) (Tree.node g tot mx ch2)

/-- `TEquiv` lifted to the `Option<Tree>` result. -/
def OptTreeEquiv : Option Tree → Option Tree → Prop
  | none, none => True
  | some t1, some t2 => TEquiv t1 t2
  | _, _ => False

/-- `TEquiv` lifted to the full (panic-aware) result of `solve`. -/
def ResultEquiv : Except Unit (Option Tree) → Except Unit (Option Tree) → Prop
  | .error _, .error _ => True
  | .ok o1, .ok o2 => OptTreeEquiv o1 o2
  | _, _ => False

/-- Pointwise relation between two `exceptMapM` results. -/
def ExceptAll2 {α : Type} (R : α → α → Prop) :
    Except Unit (List α) → Except Unit (List α) → Prop
  | .error _, .error _ => True
  | .ok l1, .ok l2 => List.Forall₂ R l1 l2
  | _, _ => False

/-- View of a sentinel-crossed symbol as a consumption mask entry
(proof-side helper relating `score` to `scoreSpec`). -/
def toOpt (n : Nat) : Option Nat := if n = CROSSED_OUT then none else some n

/-- Extract the payload of a success, with a standby value (proof-side). -/
def okD {α : Type} (d : α) : Except Unit α → α
  | Except.ok v => v
  | Except.error _ => d

/-- Pointwise relation on panic-aware results (proof-side). -/
def ExceptRel {α : Type} (R : α → α → Prop) : Except Unit α → Except Unit α → Prop
  | Except.error _, Except.error _ => True
  | Except.ok a, Except.ok b => R a b
  | _, _ => False


/-- Concrete five-letter words for the closed instances below. -/
def wordA : Word := [97, 97, 97, 97, 97]

def wordB : Word := [98, 98, 98, 98, 98]

/-- Default parameters: `n_guesses = 20`, no `--answers-only`, no starting word. -/
def params0 : Params := ⟨20, false, none⟩

/-- The tree `solve` builds for the pool `[wordA, wordB]` under the identity
`HashMap` order. -/
def treeA : Tree :=
  Tree.node wordA 3 2
    [(green5, Tree.node wordA 1 1 []), ([98, 98, 98, 98, 98], Tree.node wordB 1 1 [])]

/-- The runner-up candidate for the same pool (guessing `wordB` first). -/
def treeB : Tree :=
  Tree.node wordB 3 2
    [([98, 98, 98, 98, 98], Tree.node wordA 1 1 []), (green5, Tree.node wordB 1 1 [])]

/-- The same mapping as `treeA` with the two children enumerated in the
reversed `HashMap` order. -/
def treeARev : Tree :=
  Tree.node wordA 3 2
    [([98, 98, 98, 98, 98], Tree.node wordB 1 1 []), (green5, Tree.node wordA 1 1 [])]

/-! ### Basic facts about the embedded definitions -/

/-- Unfolding `Tree.write` without the `attach` bookkeeping. -/
theorem Tree.write_node (g : Word) (tot mx : Nat) (ch : List (Colors × Tree)) :
    Tree.write (Tree.node g tot mx ch) =
      if ch.isEmpty then [[g]]
      else ch.flatMap (fun p => (Tree.write p.2).map (fun line => g :: line)) := by
  rw [Tree.write]
  by_cases h : ch.isEmpty
  · simp only [h, if_true]
  · simp only [h, if_false]
    rw [List.flatMap_def, List.flatMap_def,
      ← List.attach_map_coe ch (fun p => (Tree.write p.2).map (fun line => g :: line))]

theorem Tree.write_leaf (g : Word) : Tree.write (Tree.leaf g) = [[g]] := by
  rw [Tree.leaf, Tree.write_node]
  simp

theorem mem_firstOccsAux {c : Colors} {seen l : List Colors} :
    c ∈ firstOccsAux seen l ↔ c ∈ l ∧ c ∉ seen := by
  induction l generalizing seen with
  | nil => simp [firstOccsAux]
  | cons x xs ih =>
    by_cases hx : x ∈ seen
    · simp only [firstOccsAux, if_pos hx, ih, List.mem_cons]
      constructor
      · rintro ⟨h1, h2⟩
        exact ⟨Or.inr h1, h2⟩
      · rintro ⟨h1 | h1, h2⟩
        · exact absurd (h1 ▸ hx) h2
        · exact ⟨h1, h2⟩
    · simp only [firstOccsAux, if_neg hx, List.mem_cons, ih]
      constructor
      · rintro (rfl | ⟨h1, h2⟩)
        · exact ⟨Or.inl rfl, hx⟩
        · simp only [List.mem_cons, not_or] at h2
          exact ⟨Or.inr h1, h2.2⟩
      · rintro ⟨rfl | h1, h2⟩
        · exact Or.inl rfl
        · by_cases hcx : c = x
          · exact Or.inl hcx
          · exact Or.inr ⟨h1, by simp [hcx, h2]⟩

theorem mem_firstOccs {c : Colors} {l : List Colors} : c ∈ firstOccs l ↔ c ∈ l := by
  simp [firstOccs, mem_firstOccsAux]

theorem nodup_firstOccsAux (seen l : List Colors) : (firstOccsAux seen l).Nodup := by
  induction l generalizing seen with
  | nil => simp [firstOccsAux]
  | cons x xs ih =>
    by_cases hx : x ∈ seen
    · simpa [firstOccsAux, hx] using ih seen
    · have hrw : firstOccsAux seen (x :: xs) = x :: firstOccsAux (x :: seen) xs := by
        simp [firstOccsAux, hx]
      rw [hrw]
      refine List.Nodup.cons ?_ (ih (x :: seen))
      intro hmem
      exact (mem_firstOccsAux.1 hmem).2 (List.mem_cons_self x seen)

theorem nodup_firstOccs (l : List Colors) : (firstOccs l).Nodup := nodup_firstOccsAux [] l

theorem firstOccs_ne_nil {l : List Colors} (h : l ≠ []) : firstOccs l ≠ [] := by
  cases l with
  | nil => exact absurd rfl h
  | cons x xs =>
    intro hcon
    have : x ∈ firstOccs (x :: xs) := mem_firstOccs.2 (List.mem_cons_self x xs)
    rw [hcon] at this
    exact absurd this (List.not_mem_nil x)

/-! ### The scorer: lengths and labels -/

theorem pass1_lengths (g : List Nat) : ∀ (a : List Nat),
    (pass1 g a).1.length = min g.length a.length ∧
    (pass1 g a).2.1.length = min g.length a.length ∧
    (pass1 g a).2.2.length = min g.length a.length := by
  induction g with
  | nil => intro a; cases a <;> simp [pass1]
  | cons x xs ih =>
    intro a
    cases a with
    | nil => simp [pass1]
    | cons y ys =>
      obtain ⟨h1, h2, h3⟩ := ih ys
      by_cases h : x = y <;>
        simp [pass1, h, h1, h2, h3, Nat.succ_min_succ]

theorem pass2_length (gs : List Nat) :
    ∀ (cs ans : List Nat), (pass2 gs cs ans).1.length = cs.length := by
  induction gs with
  | nil => intro cs ans; simp [pass2]
  | cons g gs ih =>
    intro cs ans
    cases cs with
    | nil => simp [pass2]
    | cons c cs =>
      by_cases hg : g = CROSSED_OUT
      · simp [pass2, hg, ih]
      · cases hfind : ans.findIdx? (fun a => a = g) with
        | some j => simp [pass2, hg, hfind, ih]
        | none => simp [pass2, hg, hfind, ih]

theorem score_length (g a : Word) (h : g.length = a.length) :
    (score g a).length = g.length := by
  obtain ⟨h1, h2, h3⟩ := pass1_lengths g a
  simp [score, pass2_length, h1, h]

theorem pass1_colors_cases (g : List Nat) : ∀ (a : List Nat),
    ∀ c ∈ (pass1 g a).1, c = 98 ∨ c = 103 := by
  induction g with
  | nil => intro a c hc; cases a <;> simp [pass1] at hc
  | cons x xs ih =>
    intro a c hc
    cases a with
    | nil => simp [pass1] at hc
    | cons y ys =>
      by_cases h : x = y
      · simp only [pass1, if_pos h] at hc
        rcases List.mem_cons.1 hc with rfl | hc
        · exact Or.inr rfl
        · exact ih ys c hc
      · simp only [pass1, if_neg h] at hc
        rcases List.mem_cons.1 hc with rfl | hc
        · exact Or.inl rfl
        · exact ih ys c hc

theorem pass2_colors_cases (gs : List Nat) :
    ∀ (cs ans : List Nat) (x : Nat), x ∈ (pass2 gs cs ans).1 → x = 121 ∨ x ∈ cs := by
  induction gs with
  | nil => intro cs ans x hx; simp [pass2] at hx; exact Or.inr hx
  | cons g gs ih =>
    intro cs ans x hx
    cases cs with
    | nil => simp [pass2] at hx
    | cons c cs =>
      by_cases hg : g = CROSSED_OUT
      · simp only [pass2, hg, ne_eq, not_true_eq_false, if_false] at hx
        rcases List.mem_cons.1 hx with rfl | hx
        · exact Or.inr (List.mem_cons_self _ _)
        · rcases ih cs ans x hx with h | h
          · exact Or.inl h
          · exact Or.inr (List.mem_cons_of_mem _ h)
      · cases hfind : ans.findIdx? (fun a => a = g) with
        | some j =>
          simp only [pass2, hg, ne_eq, not_false_eq_true, if_true, hfind] at hx
          rcases List.mem_cons.1 hx with rfl | hx
          · exact Or.inl rfl
          · rcases ih cs _ x hx with h | h
            · exact Or.inl h
            · exact Or.inr (List.mem_cons_of_mem _ h)
        | none =>
          simp only [pass2, hg, ne_eq, not_false_eq_true, if_true, hfind] at hx
          rcases List.mem_cons.1 hx with rfl | hx
          · exact Or.inr (List.mem_cons_self _ _)
          · rcases ih cs ans x hx with h | h
            · exact Or.inl h
            · exact Or.inr (List.mem_cons_of_mem _ h)

theorem score_colors_cases (g a : Word) :
    ∀ x ∈ score g a, x = 98 ∨ x = 121 ∨ x = 103 := by
  intro x hx
  simp only [score] at hx
  rcases pass2_colors_cases _ _ _ _ hx with h | h
  · exact Or.inr (Or.inl h)
  · rcases pass1_colors_cases g a x h with h1 | h1
    · exact Or.inl h1
    · exact Or.inr (Or.inr h1)

theorem pass1_self (g : List Nat) :
    pass1 g g = (List.replicate g.length 103, List.replicate g.length CROSSED_OUT,
      List.replicate g.length CROSSED_OUT) := by
  induction g with
  | nil => simp [pass1]
  | cons x xs ih => simp [pass1, ih, List.replicate_succ]

theorem pass2_crossed (n : Nat) :
    ∀ (cs ans : List Nat), pass2 (List.replicate n CROSSED_OUT) cs ans = (cs, ans) := by
  induction n with
  | zero => intro cs ans; simp [pass2]
  | succ n ih =>
    intro cs ans
    cases cs with
    | nil => simp [List.replicate_succ, pass2]
    | cons c cs =>
      have h2 := ih cs ans
      simp only [CROSSED_OUT] at h2
      simp [List.replicate_succ, pass2, CROSSED_OUT, h2]

theorem score_self (g : List Nat) : score g g = List.replicate g.length 103 := by
  simp [score, pass1_self, pass2_crossed]

theorem count_103_pass1 (g : List Nat) : ∀ (a : List Nat),
    (pass1 g a).1.count 103 = exactCount g a := by
  induction g with
  | nil => intro a; cases a <;> simp [pass1, exactCount]
  | cons x xs ih =>
    intro a
    cases a with
    | nil => simp [pass1, exactCount]
    | cons y ys =>
      by_cases h : x = y
      · simp [pass1, exactCount, h, ih ys, List.count_cons]
        omega
      · simp [pass1, exactCount, h, ih ys, List.count_cons]

theorem pass1_pair_g0 (g : List Nat) : ∀ (a : List Nat),
    ∀ p ∈ (pass1 g a).2.1.zip (pass1 g a).1, p.2 = 103 → p.1 = CROSSED_OUT := by
  induction g with
  | nil => intro a p hp; cases a <;> simp [pass1] at hp
  | cons x xs ih =>
    intro a p hp h103
    cases a with
    | nil => simp [pass1] at hp
    | cons y ys =>
      by_cases h : x = y
      · simp only [pass1, if_pos h, List.zip_cons_cons] at hp
        rcases List.mem_cons.1 hp with rfl | hp
        · rfl
        · exact ih ys p hp h103
      · simp only [pass1, if_neg h, List.zip_cons_cons] at hp
        rcases List.mem_cons.1 hp with rfl | hp
        · simp at h103
        · exact ih ys p hp h103

theorem count_103_pass2 (gs : List Nat) :
    ∀ (cs ans : List Nat), (∀ p ∈ gs.zip cs, p.2 = 103 → p.1 = CROSSED_OUT) →
    (pass2 gs cs ans).1.count 103 = cs.count 103 := by
  induction gs with
  | nil => intro cs ans _; simp [pass2]
  | cons g gs ih =>
    intro cs ans hpair
    cases cs with
    | nil => simp [pass2]
    | cons c cs =>
      have hpairtail : ∀ p ∈ gs.zip cs, p.2 = 103 → p.1 = CROSSED_OUT := by
        intro p hp
        exact hpair p (List.mem_cons_of_mem _ hp)
      by_cases hg : g = CROSSED_OUT
      · simp [pass2, hg, List.count_cons, ih cs ans hpairtail]
      · have hc : c ≠ 103 := by
          intro hc
          exact hg (hpair (g, c) (List.mem_cons_self _ _) hc)
        cases hfind : ans.findIdx? (fun a => a = g) with
        | some j =>
          simp [pass2, hg, hfind, List.count_cons, ih cs _ hpairtail, hc]
        | none =>
          simp [pass2, hg, hfind, List.count_cons, ih cs ans hpairtail]

theorem exactCount_le (g : List Nat) : ∀ (a : List Nat), exactCount g a ≤ g.length := by
  induction g with
  | nil => intro a; cases a <;> simp [exactCount]
  | cons x xs ih =>
    intro a
    cases a with
    | nil => simp [exactCount]
    | cons y ys =>
      have hys := ih ys
      by_cases h : x = y
      · subst h
        simp [exactCount]
        omega
      · simp [exactCount, h]
        omega

theorem exactCount_eq_iff (g : List Nat) : ∀ (a : List Nat), g.length = a.length →
    (exactCount g a = g.length ↔ g = a) := by
  induction g with
  | nil =>
    intro a h
    cases a with
    | nil => simp [exactCount]
    | cons y ys => simp at h
  | cons x xs ih =>
    intro a h
    cases a with
    | nil => simp at h
    | cons y ys =>
      have hlen : xs.length = ys.length := by simpa using h
      by_cases hxy : x = y
      · subst hxy
        have hiff := ih ys hlen
        constructor
        · intro heq
          have hx : exactCount xs ys = xs.length := by
            simp [exactCount] at heq
            omega
          rw [hiff.1 hx]
        · intro heq
          have hx : xs = ys := by injection heq
          subst hx
          have h1 : exactCount xs xs = xs.length := hiff.2 rfl
          simp [exactCount, h1]
          omega
      · constructor
        · intro heq
          exfalso
          have hle := exactCount_le xs ys
          simp [exactCount, hxy] at heq
          omega
        · intro heq
          exfalso
          apply hxy
          injection heq

/-! ### Duplicate-letter correctness of the scorer -/

theorem length_filter_or {α : Type} (l : List α) (p q : α → Bool)
    (hdisj : ∀ x, ¬(p x = true ∧ q x = true)) :
    (l.filter (fun y => p y || q y)).length = (l.filter p).length + (l.filter q).length := by
  induction l with
  | nil => simp
  | cons a as ih =>
    cases hp : p a with
    | true =>
      have hq : q a = false := by
        cases hq : q a with
        | true => exact absurd ⟨hp, hq⟩ (hdisj a)
        | false => rfl
      simp [List.filter_cons, hp, hq, ih]
      omega
    | false =>
      cases hq : q a with
      | true =>
        simp [List.filter_cons, hp, hq, ih]
        omega
      | false =>
        simp [List.filter_cons, hp, hq, ih]

theorem pass1_pair_orig (g : List Nat) : ∀ (a : List Nat),
    ∀ p ∈ g.zip (pass1 g a).2.1, p.2 ≠ CROSSED_OUT → p.2 = p.1 := by
  induction g with
  | nil => intro a p hp; cases a <;> simp [pass1] at hp
  | cons x xs ih =>
    intro a p hp hne
    cases a with
    | nil => simp [pass1] at hp
    | cons y ys =>
      by_cases h : x = y
      · simp only [pass1, if_pos h, List.zip_cons_cons] at hp
        rcases List.mem_cons.1 hp with rfl | hp
        · exact absurd rfl hne
        · exact ih ys p hp hne
      · simp only [pass1, if_neg h, List.zip_cons_cons] at hp
        rcases List.mem_cons.1 hp with rfl | hp
        · rfl
        · exact ih ys p hp hne

theorem pass1_colors_ne_121 (g a : List Nat) : ∀ c ∈ (pass1 g a).1, c ≠ 121 := by
  intro c hc
  rcases pass1_colors_cases g a c hc with h | h <;> omega

theorem pass2_filter_121_ghost (x : Nat) (G : List Nat) : ∀ (gs cs ans : List Nat),
    G.length = gs.length →
    (∀ p ∈ G.zip gs, p.2 ≠ CROSSED_OUT → p.2 = p.1) →
    (∀ c ∈ cs, c ≠ 121) →
    ((G.zip (pass2 gs cs ans).1).filter
        (fun p => decide (p.1 = x) && decide (p.2 = 121))).length =
      ((gs.zip (pass2 gs cs ans).1).filter
        (fun p => decide (p.1 = x) && decide (p.2 = 121))).length := by
  induction G with
  | nil =>
    intro gs cs ans hlen _ _
    have hg : gs = [] := by cases gs <;> simp_all
    subst hg
    simp
  | cons G0 Gs ih =>
    intro gs cs ans hlen hpair hcs
    cases gs with
    | nil => simp at hlen
    | cons g gs =>
      have hlen2 : Gs.length = gs.length := by simpa using hlen
      have hpairtail : ∀ p ∈ Gs.zip gs, p.2 ≠ CROSSED_OUT → p.2 = p.1 :=
        fun p hp => hpair p (List.mem_cons_of_mem _ hp)
      cases cs with
      | nil => simp [pass2]
      | cons c cs =>
        have hc : c ≠ 121 := hcs c (List.mem_cons_self _ _)
        have hcstail : ∀ c2 ∈ cs, c2 ≠ 121 :=
          fun c2 h2 => hcs c2 (List.mem_cons_of_mem _ h2)
        by_cases hg : g = CROSSED_OUT
        · simp only [pass2, hg, ne_eq, not_true_eq_false, if_false, List.zip_cons_cons]
          simp [List.filter_cons, hc]
          have hih := ih gs cs ans hlen2 hpairtail hcstail
          first
          | (split <;> simp [hih])
          | simp [hih]
          | exact hih
        · cases hfind : ans.findIdx? (fun a => a = g) with
          | some j =>
            have hG0 : g = G0 := hpair (G0, g) (List.mem_cons_self _ _) hg
            simp only [pass2, hg, ne_eq, not_false_eq_true, if_true, hfind,
              List.zip_cons_cons]
            simp [List.filter_cons, hG0]
            have hih := ih gs cs (ans.set j CROSSED_OUT) hlen2 hpairtail hcstail
            first
            | (split <;> simp [hih])
            | simp [hih]
            | exact hih
          | none =>
            simp only [pass2, hg, ne_eq, not_false_eq_true, if_true, hfind,
              List.zip_cons_cons]
            simp [List.filter_cons, hc]
            have hih := ih gs cs ans hlen2 hpairtail hcstail
            first
            | (split <;> simp [hih])
            | simp [hih]
            | exact hih

theorem pass2_filter_103_ghost (x : Nat) (G : List Nat) : ∀ (gs cs ans : List Nat),
    (∀ p ∈ gs.zip cs, p.2 = 103 → p.1 = CROSSED_OUT) →
    ((G.zip (pass2 gs cs ans).1).filter
        (fun p => decide (p.1 = x) && decide (p.2 = 103))).length =
      ((G.zip cs).filter (fun p => decide (p.1 = x) && decide (p.2 = 103))).length := by
  induction G with
  | nil => intro gs cs ans _; simp
  | cons G0 Gs ih =>
    intro gs cs ans hpair
    cases gs with
    | nil => simp [pass2]
    | cons g gs =>
      cases cs with
      | nil => simp [pass2]
      | cons c cs =>
        have hpairtail : ∀ p ∈ gs.zip cs, p.2 = 103 → p.1 = CROSSED_OUT :=
          fun p hp => hpair p (List.mem_cons_of_mem _ hp)
        by_cases hg : g = CROSSED_OUT
        · simp only [pass2, hg, ne_eq, not_true_eq_false, if_false, List.zip_cons_cons]
          simp [List.filter_cons]
          have hih := ih gs cs ans hpairtail
          first
          | (split <;> simp [hih])
          | simp [hih]
          | exact hih
        · cases hfind : ans.findIdx? (fun a => a = g) with
          | some j =>
            have hc : c ≠ 103 := by
              intro h103
              exact hg (hpair (g, c) (List.mem_cons_self _ _) h103)
            simp only [pass2, hg, ne_eq, not_false_eq_true, if_true, hfind,
              List.zip_cons_cons]
            simp [List.filter_cons, hc]
            have hih := ih gs cs (ans.set j CROSSED_OUT) hpairtail
            first
            | (split <;> simp [hih])
            | simp [hih]
            | exact hih
          | none =>
            simp only [pass2, hg, ne_eq, not_false_eq_true, if_true, hfind,
              List.zip_cons_cons]
            simp [List.filter_cons]
            have hih := ih gs cs ans hpairtail
            first
            | (split <;> simp [hih])
            | simp [hih]
            | exact hih

theorem count_set_zero (x : Nat) (hx : x ≠ CROSSED_OUT) (l : List Nat) :
    ∀ (j : Nat) (hj : j < l.length),
    l.count x = (l.set j CROSSED_OUT).count x + (if l[j] = x then 1 else 0) := by
  induction l with
  | nil => intro j hj; simp at hj
  | cons a l ih =>
    intro j hj
    cases j with
    | zero =>
      simp only [List.set_cons_zero, List.getElem_cons_zero, List.count_cons]
      have h0 : ¬(CROSSED_OUT = x) := fun h => hx h.symm
      by_cases hax : a = x
      · simp [hax, h0]
      · simp [hax, h0]
    | succ j =>
      have hj2 : j < l.length := by simpa using hj
      have := ih j hj2
      simp only [List.set_cons_succ, List.getElem_cons_succ, List.count_cons]
      by_cases hax : a = x
      · simp [hax]
        omega
      · simp [hax]
        omega

theorem pass2_count_consume (x : Nat) (hx : x ≠ CROSSED_OUT) (gs : List Nat) :
    ∀ (cs ans : List Nat), (∀ c ∈ cs, c ≠ 121) →
    ans.count x = (pass2 gs cs ans).2.count x +
      ((gs.zip (pass2 gs cs ans).1).filter
        (fun p => decide (p.1 = x) && decide (p.2 = 121))).length := by
  induction gs with
  | nil => intro cs ans _; simp [pass2]
  | cons g gs ih =>
    intro cs ans hcs
    cases cs with
    | nil => simp [pass2]
    | cons c cs =>
      have hc : c ≠ 121 := hcs c (List.mem_cons_self _ _)
      have hcstail : ∀ c2 ∈ cs, c2 ≠ 121 :=
        fun c2 h2 => hcs c2 (List.mem_cons_of_mem _ h2)
      by_cases hg : g = CROSSED_OUT
      · simp only [pass2, hg, ne_eq, not_true_eq_false, if_false, List.zip_cons_cons]
        simp [List.filter_cons, hc]
        exact ih cs ans hcstail
      · cases hfind : ans.findIdx? (fun a => a = g) with
        | some j =>
          obtain ⟨hjlt, hpj, -⟩ := List.findIdx?_eq_some_iff_getElem.1 hfind
          have hansj : ans[j] = g := by simpa using hpj
          have hset2 : ans.count x =
              (ans.set j CROSSED_OUT).count x + (if g = x then 1 else 0) := by
            rw [count_set_zero x hx ans j hjlt, hansj]
          have hcnt := ih cs (ans.set j CROSSED_OUT) hcstail
          simp only [pass2, hg, ne_eq, not_false_eq_true, if_true, hfind,
            List.zip_cons_cons, List.filter_cons]
          by_cases hgx : g = x
          · simp [hgx] at hset2 ⊢
            omega
          · simp [hgx] at hset2 ⊢
            omega
        | none =>
          simp only [pass2, hg, ne_eq, not_false_eq_true, if_true, hfind,
            List.zip_cons_cons]
          simp [List.filter_cons, hc]
          exact ih cs ans hcstail

theorem pass1_count_filter (x : Nat) (hx : x ≠ CROSSED_OUT) (g : List Nat) :
    ∀ (a : List Nat),
    a.count x = (pass1 g a).2.2.count x +
      ((g.zip (pass1 g a).1).filter
        (fun p => decide (p.1 = x) && decide (p.2 = 103))).length + (a.drop g.length).count x := by
  induction g with
  | nil => intro a; simp [pass1]
  | cons x0 xs ih =>
    intro a
    cases a with
    | nil => simp [pass1]
    | cons y ys =>
      by_cases hm : x0 = y
      · subst hm
        have hrec := ih ys
        have h0x : ¬(CROSSED_OUT = x) := fun h => hx h.symm
        have hcc : List.count x (CROSSED_OUT :: (pass1 xs ys).2.2) =
            List.count x (pass1 xs ys).2.2 := by
          simp [List.count_cons, h0x]
        by_cases hgx : x0 = x
        · simp only [pass1, if_pos rfl, List.zip_cons_cons, List.filter_cons,
            List.count_cons, List.drop_succ_cons]
          simp [hgx, hcc]
          omega
        · simp only [pass1, if_pos rfl, List.zip_cons_cons, List.filter_cons,
            List.count_cons, List.drop_succ_cons]
          simp [hgx, hcc]
          omega
      · have hrec := ih ys
        simp only [pass1, if_neg hm, List.zip_cons_cons, List.filter_cons,
          List.count_cons, List.drop_succ_cons]
        by_cases hyx : y = x
        · simp [hyx]
          omega
        · simp [hyx]
          omega

theorem score_count_103 (g a : Word) :
    (score g a).count 103 = exactCount g a := by
  simp only [score]
  rw [count_103_pass2 _ _ _ (pass1_pair_g0 g a)]
  exact count_103_pass1 g a

theorem score_green_iff (g a : Word) (hg : g.length = 5) (ha : a.length = 5) :
    score g a = green5 ↔ g = a := by
  constructor
  · intro h
    have hcount : (score g a).count 103 = 5 := by rw [h]; rfl
    rw [score_count_103] at hcount
    exact (exactCount_eq_iff g a (by omega)).1 (by omega)
  · intro h
    subst h
    rw [score_self, hg]
    rfl

theorem labelCount_le_count (g a : Word) (x : Nat) (hx : x ≠ CROSSED_OUT)
    (hlen : g.length = a.length) :
    labelCount x g (score g a) ≤ a.count x := by
  obtain ⟨hc1, hg1, ha1⟩ := pass1_lengths g a
  have hg1len : g.length = (pass1 g a).2.1.length := by omega
  have hsplit : labelCount x g (score g a) =
      ((g.zip (score g a)).filter (fun p => decide (p.1 = x) && decide (p.2 = 103))).length +
      ((g.zip (score g a)).filter (fun p => decide (p.1 = x) && decide (p.2 = 121))).length := by
    rw [labelCount]
    have hfun : (fun (p : Nat × Nat) =>
        decide (p.1 = x) && (decide (p.2 = 103) || decide (p.2 = 121))) =
        (fun p => (decide (p.1 = x) && decide (p.2 = 103)) ||
          (decide (p.1 = x) && decide (p.2 = 121))) := by
      funext p
      cases decide (p.1 = x) <;> simp
    rw [hfun]
    exact length_filter_or _ _ _ (fun p => by
      rintro ⟨h1, h2⟩
      simp only [Bool.and_eq_true, decide_eq_true_eq] at h1 h2
      omega)
  rw [hsplit]
  have h121 := pass2_filter_121_ghost x g (pass1 g a).2.1 (pass1 g a).1 (pass1 g a).2.2
    hg1len (pass1_pair_orig g a) (pass1_colors_ne_121 g a)
  have hcons := pass2_count_consume x hx (pass1 g a).2.1 (pass1 g a).1 (pass1 g a).2.2
    (pass1_colors_ne_121 g a)
  have h103 := pass2_filter_103_ghost x g (pass1 g a).2.1 (pass1 g a).1 (pass1 g a).2.2
    (pass1_pair_g0 g a)
  have h103b := pass1_count_filter x hx g a
  have hdrop : (a.drop g.length).count x = 0 := by
    rw [hlen, List.drop_length]
    rfl
  have hscore : score g a = (pass2 (pass1 g a).2.1 (pass1 g a).1 (pass1 g a).2.2).1 := rfl
  rw [hscore, h121, h103]
  omega

/-! ### The scorer matches the specification text -/

theorem specPass1_eq (g : List Nat) : ∀ (a : List Nat), (∀ y ∈ a, y ≠ CROSSED_OUT) →
    specPass1 g a = ((pass1 g a).1, (pass1 g a).2.2.map toOpt) := by
  induction g with
  | nil => intro a _; cases a <;> simp [specPass1, pass1]
  | cons x xs ih =>
    intro a ha
    cases a with
    | nil => simp [specPass1, pass1]
    | cons y ys =>
      have hy : y ≠ CROSSED_OUT := ha y (List.mem_cons_self _ _)
      have hys : ∀ y2 ∈ ys, y2 ≠ CROSSED_OUT :=
        fun y2 h2 => ha y2 (List.mem_cons_of_mem _ h2)
      by_cases h : x = y
      · simp [specPass1, pass1, h, ih ys hys, toOpt, CROSSED_OUT]
      · simp [specPass1, pass1, h, ih ys hys, toOpt, hy]

theorem specConsume_none (x : Nat) (ans : List Nat) :
    ans.findIdx? (fun a => a = x) = none →
    specConsume x (ans.map toOpt) = none := by
  induction ans with
  | nil => intro _; simp [specConsume]
  | cons a rest ih =>
    intro h
    rw [List.findIdx?_cons] at h
    by_cases hax : a = x
    · simp [hax] at h
    · have h2 : rest.findIdx? (fun b => b = x) = none := by
        simp only [hax, decide_eq_true_eq, if_neg] at h
        rw [List.findIdx?_succ] at h
        simpa using h
      by_cases ha0 : a = CROSSED_OUT
      · simp [toOpt, ha0, specConsume, ih h2]
      · simp [toOpt, ha0, specConsume, hax, ih h2]

theorem specConsume_some (x : Nat) (hx : x ≠ CROSSED_OUT) (ans : List Nat) :
    ∀ (j : Nat), ans.findIdx? (fun a => a = x) = some j →
    specConsume x (ans.map toOpt) = some ((ans.set j CROSSED_OUT).map toOpt) := by
  induction ans with
  | nil => intro j h; simp at h
  | cons a rest ih =>
    intro j h
    rw [List.findIdx?_cons] at h
    by_cases hax : a = x
    · simp only [hax, decide_eq_true_eq, if_pos, Option.some.injEq] at h
      subst h
      have hane : a ≠ CROSSED_OUT := by rw [hax]; exact hx
      simp [specConsume, toOpt, hane, hax, hx, List.set_cons_zero]
    · simp only [hax, decide_eq_true_eq, if_neg] at h
      rw [List.findIdx?_succ] at h
      obtain ⟨j2, hj2, rfl⟩ := Option.map_eq_some'.1 h
      by_cases ha0 : a = CROSSED_OUT
      · simp [toOpt, ha0, specConsume, ih j2 hj2, List.set_cons_succ]
      · simp [toOpt, ha0, specConsume, hax, ih j2 hj2, List.set_cons_succ]

theorem pass1_pair_iff (g : List Nat) : ∀ (a : List Nat), (∀ y ∈ g, y ≠ CROSSED_OUT) →
    ∀ p ∈ g.zip ((pass1 g a).2.1.zip (pass1 g a).1),
      (p.2.1 = CROSSED_OUT ↔ p.2.2 = 103) ∧ (p.2.1 ≠ CROSSED_OUT → p.2.1 = p.1) := by
  induction g with
  | nil => intro a _ p hp; cases a <;> simp [pass1] at hp
  | cons x xs ih =>
    intro a hg p hp
    cases a with
    | nil => simp [pass1] at hp
    | cons y ys =>
      have hx : x ≠ CROSSED_OUT := hg x (List.mem_cons_self _ _)
      have hgs : ∀ y2 ∈ xs, y2 ≠ CROSSED_OUT :=
        fun y2 h2 => hg y2 (List.mem_cons_of_mem _ h2)
      by_cases h : x = y
      · simp only [pass1, if_pos h, List.zip_cons_cons] at hp
        rcases List.mem_cons.1 hp with rfl | hp
        · refine ⟨by simp, fun hne => absurd rfl hne⟩
        · exact ih ys hgs p hp
      · simp only [pass1, if_neg h, List.zip_cons_cons] at hp
        rcases List.mem_cons.1 hp with rfl | hp
        · refine ⟨⟨fun h0 => absurd h0 hx, fun h103 => by simp at h103⟩, fun _ => rfl⟩
        · exact ih ys hgs p hp

theorem specPass2_eq_pass2 (G : List Nat) : ∀ (gs cs ans : List Nat),
    (∀ y ∈ G, y ≠ CROSSED_OUT) →
    G.length = gs.length →
    (∀ p ∈ G.zip (gs.zip cs),
      (p.2.1 = CROSSED_OUT ↔ p.2.2 = 103) ∧ (p.2.1 ≠ CROSSED_OUT → p.2.1 = p.1)) →
    specPass2 G cs (ans.map toOpt) = (pass2 gs cs ans).1 := by
  induction G with
  | nil =>
    intro gs cs ans _ hlen _
    have hnil : gs = [] := by cases gs <;> simp_all
    subst hnil
    simp [specPass2, pass2]
  | cons G0 Gs ih =>
    intro gs cs ans hG hlen hzip
    have hG0 : G0 ≠ CROSSED_OUT := hG G0 (List.mem_cons_self _ _)
    have hGs : ∀ y ∈ Gs, y ≠ CROSSED_OUT := fun y h => hG y (List.mem_cons_of_mem _ h)
    cases gs with
    | nil => simp at hlen
    | cons g gs =>
      have hlen2 : Gs.length = gs.length := by simpa using hlen
      cases cs with
      | nil => simp [specPass2, pass2]
      | cons c cs =>
        have hhead := hzip (G0, (g, c)) (by simp [List.zip_cons_cons])
        have hztail : ∀ p ∈ Gs.zip (gs.zip cs),
            (p.2.1 = CROSSED_OUT ↔ p.2.2 = 103) ∧ (p.2.1 ≠ CROSSED_OUT → p.2.1 = p.1) :=
          fun p hp => hzip p (by simp only [List.zip_cons_cons]; exact List.mem_cons_of_mem _ hp)
        by_cases hgc : g = CROSSED_OUT
        · have hc103 : c = 103 := (hhead.1).1 hgc
          simp only [specPass2, pass2, hgc, ne_eq, not_true_eq_false, if_false, hc103]
          simp [ih gs cs ans hGs hlen2 hztail]
        · have hc : c ≠ 103 := fun h103 => hgc ((hhead.1).2 h103)
          have hgG0 : g = G0 := hhead.2 hgc
          subst hgG0
          cases hfind : ans.findIdx? (fun b => b = g) with
          | some j =>
            have hcons := specConsume_some g hgc ans j hfind
            simp only [specPass2, pass2, hgc, ne_eq, not_false_eq_true, if_true, hfind,
              hcons, hc, if_neg]
            have hmapset : (List.map toOpt ans).set j (toOpt CROSSED_OUT) =
                List.map toOpt (ans.set j CROSSED_OUT) := by
              rw [List.map_set]
            simp [hc]
            rw [hmapset]
            exact ih gs cs (ans.set j CROSSED_OUT) hGs hlen2 hztail
          | none =>
            have hcons := specConsume_none g ans hfind
            simp only [specPass2, pass2, hgc, ne_eq, not_false_eq_true, if_true, hfind,
              hcons, hc, if_neg]
            simp [hc, ih gs cs ans hGs hlen2 hztail]

theorem scoreSpec_eq_score (g a : Word) (hg0 : ∀ y ∈ g, y ≠ CROSSED_OUT)
    (ha0 : ∀ y ∈ a, y ≠ CROSSED_OUT) (hlen : g.length = a.length) :
    scoreSpec g a = score g a := by
  obtain ⟨hc1, hg1, ha1⟩ := pass1_lengths g a
  have h1 : specPass1 g a = ((pass1 g a).1, (pass1 g a).2.2.map toOpt) :=
    specPass1_eq g a ha0
  simp only [scoreSpec, score, h1]
  exact specPass2_eq_pass2 g (pass1 g a).2.1 (pass1 g a).1 (pass1 g a).2.2 hg0
    (by omega) (pass1_pair_iff g a hg0)

/-! ### The candidate loop: `exceptMapM`, `buildChildren`, `minByTotal` -/

theorem exceptMapM_ok_iff {α β : Type} (f : α → Except Unit β) :
    ∀ (l : List α), (∃ ys, exceptMapM f l = Except.ok ys) ↔ ∀ x ∈ l, ∃ y, f x = Except.ok y := by
  intro l
  induction l with
  | nil => simp [exceptMapM]
  | cons x xs ih =>
    constructor
    · rintro ⟨ys, hys⟩
      simp only [exceptMapM] at hys
      cases hfx : f x with
      | error e => rw [hfx] at hys; exact absurd hys (by simp)
      | ok y =>
        rw [hfx] at hys
        cases hxs : exceptMapM f xs with
        | error e => rw [hxs] at hys; exact absurd hys (by simp)
        | ok ys2 =>
          intro z hz
          rcases List.mem_cons.1 hz with rfl | hz
          · exact ⟨y, hfx⟩
          · exact (ih.1 ⟨ys2, hxs⟩) z hz
    · intro hall
      obtain ⟨y, hy⟩ := hall x (List.mem_cons_self _ _)
      obtain ⟨ys, hys⟩ := ih.2 (fun z hz => hall z (List.mem_cons_of_mem _ hz))
      exact ⟨y :: ys, by simp [exceptMapM, hy, hys]⟩

theorem exceptMapM_ok_mem {α β : Type} (f : α → Except Unit β) :
    ∀ (l : List α) (ys : List β), exceptMapM f l = Except.ok ys →
    ∀ y ∈ ys, ∃ x ∈ l, f x = Except.ok y := by
  intro l
  induction l with
  | nil =>
    intro ys hys y hy
    simp [exceptMapM] at hys
    subst hys
    simp at hy
  | cons x xs ih =>
    intro ys hys y hy
    simp only [exceptMapM] at hys
    cases hfx : f x with
    | error e => rw [hfx] at hys; exact absurd hys (by simp)
    | ok y2 =>
      rw [hfx] at hys
      cases hxs : exceptMapM f xs with
      | error e => rw [hxs] at hys; exact absurd hys (by simp)
      | ok ys2 =>
        rw [hxs] at hys
        simp only [Except.ok.injEq] at hys
        subst hys
        rcases List.mem_cons.1 hy with rfl | hy
        · exact ⟨x, List.mem_cons_self _ _, hfx⟩
        · obtain ⟨x2, hx2, hfx2⟩ := ih ys2 hxs y hy
          exact ⟨x2, List.mem_cons_of_mem _ hx2, hfx2⟩

theorem exceptMapM_eq_map {α β : Type} (f : α → Except Unit β) (d : β) :
    ∀ (l : List α), (∀ x ∈ l, ∃ y, f x = Except.ok y) →
    exceptMapM f l = Except.ok (l.map (fun x => okD d (f x))) := by
  intro l
  induction l with
  | nil => intro _; simp [exceptMapM]
  | cons x xs ih =>
    intro hall
    obtain ⟨y, hy⟩ := hall x (List.mem_cons_self _ _)
    have hxs := ih (fun z hz => hall z (List.mem_cons_of_mem _ hz))
    simp [exceptMapM, hy, hxs, okD]

theorem exceptMapM_congr {α β : Type} (f1 f2 : α → Except Unit β) :
    ∀ (l : List α), (∀ x ∈ l, f1 x = f2 x) → exceptMapM f1 l = exceptMapM f2 l := by
  intro l
  induction l with
  | nil => intro _; simp [exceptMapM]
  | cons x xs ih =>
    intro hall
    have hx := hall x (List.mem_cons_self _ _)
    have hxs := ih (fun z hz => hall z (List.mem_cons_of_mem _ hz))
    simp [exceptMapM, hx, hxs]

theorem exceptMapM_rel {α β : Type} (R : β → β → Prop) (f1 f2 : α → Except Unit β) :
    ∀ (l : List α), (∀ x ∈ l, ExceptRel R (f1 x) (f2 x)) →
    ExceptAll2 R (exceptMapM f1 l) (exceptMapM f2 l) := by
  intro l
  induction l with
  | nil => intro _; simp [exceptMapM, ExceptAll2]
  | cons x xs ih =>
    intro hall
    have hx := hall x (List.mem_cons_self _ _)
    have hxs := ih (fun z hz => hall z (List.mem_cons_of_mem _ hz))
    simp only [exceptMapM]
    cases h1 : f1 x with
    | error e =>
      cases h2 : f2 x with
      | error e2 => simp [ExceptAll2]
      | ok y2 => rw [h1, h2] at hx; exact absurd hx (by simp [ExceptRel])
    | ok y1 =>
      cases h2 : f2 x with
      | error e2 => rw [h1, h2] at hx; exact absurd hx (by simp [ExceptRel])
      | ok y2 =>
        rw [h1, h2] at hx
        cases hm1 : exceptMapM f1 xs with
        | error e =>
          cases hm2 : exceptMapM f2 xs with
          | error e2 => simp [ExceptAll2]
          | ok ys2 => rw [hm1, hm2] at hxs; exact absurd hxs (by simp [ExceptAll2])
        | ok ys1 =>
          cases hm2 : exceptMapM f2 xs with
          | error e2 => rw [hm1, hm2] at hxs; exact absurd hxs (by simp [ExceptAll2])
          | ok ys2 =>
            rw [hm1, hm2] at hxs
            simp only [ExceptAll2] at hxs ⊢
            exact List.Forall₂.cons hx hxs

theorem exceptMapM_recurKey_ok (recur : List Word → Except Unit (Option Tree))
    (guess : Word) (answers : List Word) :
    ∀ (keys : List Colors) (kids : List (Colors × Option Tree)),
    exceptMapM (recurKey recur guess answers) keys = Except.ok kids →
    kids.map Prod.fst = keys ∧
    ∀ p ∈ kids, recur (answers.filter (fun a => score guess a = p.1)) = Except.ok p.2 := by
  intro keys
  induction keys with
  | nil =>
    intro kids h
    simp [exceptMapM] at h
    subst h
    simp
  | cons c cs ih =>
    intro kids h
    simp only [exceptMapM, recurKey] at h
    cases hr : recur (answers.filter (fun a => score guess a = c)) with
    | error e => rw [hr] at h; exact absurd h (by simp)
    | ok r =>
      rw [hr] at h
      cases hm : exceptMapM (recurKey recur guess answers) cs with
      | error e => rw [hm] at h; simp at h
      | ok kids2 =>
        rw [hm] at h
        simp only [Except.ok.injEq] at h
        subst h
        obtain ⟨hmap, hall⟩ := ih kids2 hm
        refine ⟨by simp [hmap], ?_⟩
        intro p hp
        rcases List.mem_cons.1 hp with rfl | hp
        · exact hr
        · exact hall p hp

theorem buildChildren_some :
    ∀ (kids : List (Colors × Option Tree)) (ch : List (Colors × Tree)),
    buildChildren kids = some ch →
    ch.map Prod.fst = kids.map Prod.fst ∧ ∀ p ∈ ch, (p.1, some p.2) ∈ kids := by
  intro kids
  induction kids with
  | nil =>
    intro ch h
    simp [buildChildren] at h
    subst h
    simp
  | cons k rest ih =>
    intro ch h
    obtain ⟨c, r⟩ := k
    cases r with
    | none => simp [buildChildren] at h
    | some t =>
      simp only [buildChildren] at h
      cases hb : buildChildren rest with
      | none => rw [hb] at h; simp at h
      | some ch2 =>
        rw [hb] at h
        simp only [Option.some.injEq] at h
        subst h
        obtain ⟨hmap, hall⟩ := ih ch2 hb
        refine ⟨by simp [hmap], ?_⟩
        intro p hp
        rcases List.mem_cons.1 hp with rfl | hp
        · exact List.mem_cons_self _ _
        · exact List.mem_cons_of_mem _ (hall p hp)

theorem buildChildren_isSome_iff :
    ∀ (kids : List (Colors × Option Tree)),
    (∃ ch, buildChildren kids = some ch) ↔ ∀ p ∈ kids, p.2.isSome = true := by
  intro kids
  induction kids with
  | nil => simp [buildChildren]
  | cons k rest ih =>
    obtain ⟨c, r⟩ := k
    cases r with
    | none => simp [buildChildren]
    | some t =>
      simp only [buildChildren]
      constructor
      · rintro ⟨ch, hch⟩
        cases hb : buildChildren rest with
        | none => rw [hb] at hch; simp at hch
        | some ch2 =>
          intro p hp
          rcases List.mem_cons.1 hp with rfl | hp
          · simp
          · exact (ih.1 ⟨ch2, hb⟩) p hp
      · intro hall
        obtain ⟨ch2, hb⟩ := ih.2 (fun p hp => hall p (List.mem_cons_of_mem _ hp))
        exact ⟨(c, t) :: ch2, by simp [hb]⟩

theorem buildChildren_map_some (f : Colors → Tree) :
    ∀ (keys : List Colors),
    buildChildren (keys.map (fun c => (c, some (f c)))) = some (keys.map (fun c => (c, f c))) := by
  intro keys
  induction keys with
  | nil => simp [buildChildren]
  | cons c cs ih => simp [buildChildren, ih]

theorem minByTotal_some_mem : ∀ (ts : List Tree) (t : Tree),
    minByTotal ts = some t → t ∈ ts := by
  intro ts t h
  cases ts with
  | nil => simp [minByTotal] at h
  | cons x xs =>
    simp only [minByTotal, Option.some.injEq] at h
    subst h
    induction xs generalizing x with
    | nil => simp
    | cons u us ih =>
      simp only [List.foldl_cons]
      by_cases hu : u.total_guesses < x.total_guesses
      · simp only [if_pos hu]
        have := ih u
        rcases List.mem_cons.1 this with h1 | h1
        · rw [h1]; simp
        · simp [List.mem_cons_of_mem, h1]
      · simp only [if_neg hu]
        have := ih x
        rcases List.mem_cons.1 this with h1 | h1
        · rw [h1]; simp
        · simp [List.mem_cons_of_mem, h1]

theorem minByTotal_none_iff : ∀ (ts : List Tree), minByTotal ts = none ↔ ts = [] := by
  intro ts
  cases ts <;> simp [minByTotal]

theorem foldl_min_combine : ∀ (xs : List Tree) (x : Tree),
    xs.foldl (fun best u => if u.total_guesses < best.total_guesses then u else best) x =
      (match minByTotal xs with
       | none => x
       | some m => if m.total_guesses < x.total_guesses then m else x) := by
  intro xs
  induction xs with
  | nil => intro x; simp [minByTotal]
  | cons u us ih =>
    intro x
    have hm : minByTotal (u :: us) = some (us.foldl
        (fun best v => if v.total_guesses < best.total_guesses then v else best) u) := rfl
    rw [hm]
    simp only [List.foldl_cons]
    rw [ih (if u.total_guesses < x.total_guesses then u else x), ih u]
    cases hmin : minByTotal us with
    | none =>
      have : us = [] := (minByTotal_none_iff us).1 hmin
      subst this
      simp [minByTotal] at hmin ⊢
    | some m =>
      by_cases hux : u.total_guesses < x.total_guesses
      · simp only [if_pos hux]
        by_cases hmu : m.total_guesses < u.total_guesses
        · simp only [if_pos hmu]
          have hmx : m.total_guesses < x.total_guesses := Nat.lt_trans hmu hux
          simp [if_pos hmx]
        · simp only [if_neg hmu]
          simp [if_pos hux]
      · simp only [if_neg hux]
        by_cases hmu : m.total_guesses < u.total_guesses
        · simp only [if_pos hmu]
        · simp only [if_neg hmu]
          have hnmx : ¬m.total_guesses < x.total_guesses := by omega
          simp [if_neg hnmx, if_neg hux]

theorem foldl_min_keep (xs : List Tree) : ∀ (x : Tree),
    (∀ u ∈ xs, x.total_guesses ≤ u.total_guesses) →
    xs.foldl (fun best u => if u.total_guesses < best.total_guesses then u else best) x = x := by
  induction xs with
  | nil => intro x _; simp
  | cons u us ih =>
    intro x hall
    have hxu : ¬u.total_guesses < x.total_guesses := by
      have := hall u (List.mem_cons_self _ _)
      omega
    simp only [List.foldl_cons, if_neg hxu]
    exact ih x (fun v hv => hall v (List.mem_cons_of_mem _ hv))

theorem minByTotal_argmin_first : ∀ (ts : List Tree) (i : Nat) (hi : i < ts.length),
    (∀ (j : Nat) (hj : j < ts.length),
      (ts.get ⟨i, hi⟩).total_guesses ≤ (ts.get ⟨j, hj⟩).total_guesses) →
    (∀ (j : Nat) (hj : j < ts.length), j < i →
      (ts.get ⟨i, hi⟩).total_guesses < (ts.get ⟨j, hj⟩).total_guesses) →
    minByTotal ts = some (ts.get ⟨i, hi⟩) := by
  intro ts
  induction ts with
  | nil => intro i hi; simp at hi
  | cons x xs ih =>
    intro i hi hmin hfirst
    cases i with
    | zero =>
      have hall : ∀ u ∈ xs, x.total_guesses ≤ u.total_guesses := by
        intro u hu
        obtain ⟨⟨j, hj⟩, hget⟩ := List.mem_iff_get.1 hu
        have h2 := hmin (j + 1) (by simpa using Nat.succ_lt_succ hj)
        simpa [← hget] using h2
      simp only [minByTotal, Option.some.injEq, List.get_cons_zero]
      exact foldl_min_keep xs x hall
    | succ j =>
      have hj : j < xs.length := by simpa using hi
      have hmin2 : ∀ (k : Nat) (hk : k < xs.length),
          (xs.get ⟨j, hj⟩).total_guesses ≤ (xs.get ⟨k, hk⟩).total_guesses := by
        intro k hk
        have := hmin (k + 1) (by simpa using Nat.succ_lt_succ hk)
        simpa using this
      have hfirst2 : ∀ (k : Nat) (hk : k < xs.length), k < j →
          (xs.get ⟨j, hj⟩).total_guesses < (xs.get ⟨k, hk⟩).total_guesses := by
        intro k hk hkj
        have := hfirst (k + 1) (by simpa using Nat.succ_lt_succ hk) (Nat.succ_lt_succ hkj)
        simpa using this
      have hxs := ih j hj hmin2 hfirst2
      have hx0 : (xs.get ⟨j, hj⟩).total_guesses < x.total_guesses := by
        have := hfirst 0 (by simp) (Nat.succ_pos j)
        simpa using this
      simp only [minByTotal, Option.some.injEq, List.get_cons_succ]
      rw [foldl_min_combine, hxs]
      simp [hx0]
      intro hle
      exfalso
      simp only [List.get_eq_getElem] at hx0
      omega

theorem foldl_min_rel (R : Tree → Tree → Prop)
    (htot : ∀ a b, R a b → a.total_guesses = b.total_guesses) :
    ∀ (xs1 xs2 : List Tree), List.Forall₂ R xs1 xs2 → ∀ (x1 x2 : Tree), R x1 x2 →
    R (xs1.foldl (fun best u => if u.total_guesses < best.total_guesses then u else best) x1)
      (xs2.foldl (fun best u => if u.total_guesses < best.total_guesses then u else best) x2) := by
  intro xs1 xs2 hall
  induction hall with
  | nil => intro x1 x2 h; simpa using h
  | @cons a b l1 l2 h1 h2 ih =>
    intro x1 x2 h
    simp only [List.foldl_cons]
    have hab := htot a b h1
    have hx := htot x1 x2 h
    by_cases hlt : a.total_guesses < x1.total_guesses
    · have hlt2 : b.total_guesses < x2.total_guesses := by omega
      simp only [if_pos hlt, if_pos hlt2]
      exact ih a b h1
    · have hlt2 : ¬b.total_guesses < x2.total_guesses := by omega
      simp only [if_neg hlt, if_neg hlt2]
      exact ih x1 x2 h

theorem minByTotal_forall2 (R : Tree → Tree → Prop)
    (htot : ∀ a b, R a b → a.total_guesses = b.total_guesses) :
    ∀ (ts1 ts2 : List Tree), List.Forall₂ R ts1 ts2 →
    (minByTotal ts1 = none ∧ minByTotal ts2 = none) ∨
    (∃ t1 t2, minByTotal ts1 = some t1 ∧ minByTotal ts2 = some t2 ∧ R t1 t2) := by
  intro ts1 ts2 hall
  cases hall with
  | nil => left; simp [minByTotal]
  | @cons a b l1 l2 h1 h2 =>
    right
    exact ⟨_, _, rfl, rfl, foldl_min_rel R htot l1 l2 h2 a b h1⟩

theorem filterMap_id_forall2 :
    ∀ (l1 l2 : List (Option Tree)), List.Forall₂ OptTreeEquiv l1 l2 →
    List.Forall₂ TEquiv (l1.filterMap id) (l2.filterMap id) := by
  intro l1 l2 h
  induction h with
  | nil => simp
  | @cons a b t1 t2 h1 h2 ih =>
    cases a with
    | none =>
      cases b with
      | none => simpa using ih
      | some tb => exact absurd h1 (by simp [OptTreeEquiv])
    | some ta =>
      cases b with
      | none => exact absurd h1 (by simp [OptTreeEquiv])
      | some tb =>
        exact List.Forall₂.cons h1 ih

/-! ### Unfolding and fuel-irrelevance of `solveF` -/

theorem solveF_succ_empty (fuel : Nat) (params : Params)
    (hashOrder : List Colors → List Colors) (depth : Nat) (guesses : List Word) :
    solveF (fuel + 1) params hashOrder depth guesses [] = Except.error () := rfl

theorem solveF_succ_depth (fuel : Nat) (params : Params)
    (hashOrder : List Colors → List Colors) (depth : Nat) (guesses answers : List Word)
    (hne : answers ≠ []) (hd : 7 ≤ depth) :
    solveF (fuel + 1) params hashOrder depth guesses answers = Except.ok none := by
  cases answers with
  | nil => exact absurd rfl hne
  | cons a as => cases as <;> simp [solveF, hd]

theorem solveF_succ_single (fuel : Nat) (params : Params)
    (hashOrder : List Colors → List Colors) (depth : Nat) (guesses : List Word) (a : Word)
    (hd : depth < 7) :
    solveF (fuel + 1) params hashOrder depth guesses [a] =
      Except.ok (some (Tree.leaf a)) := by
  simp [solveF, Nat.not_le.2 hd]

theorem solveF_succ_big (fuel : Nat) (params : Params)
    (hashOrder : List Colors → List Colors) (depth : Nat) (guesses : List Word)
    (a b : Word) (rest : List Word) (hd : depth < 7) :
    solveF (fuel + 1) params hashOrder depth guesses (a :: b :: rest) =
      (match topGuesses params depth guesses (a :: b :: rest) with
       | Except.error e => Except.error e
       | Except.ok tops =>
         if tops.isEmpty then Except.error ()
         else
           match exceptMapM (fun g =>
               solveCandidate (solveF fuel params hashOrder (depth + 1) guesses)
                 hashOrder g (a :: b :: rest)) tops with
           | Except.error e => Except.error e
           | Except.ok cands => Except.ok (minByTotal (cands.filterMap id))) := by
  simp [solveF, Nat.not_le.2 hd]

theorem solveF_fuel_congr : ∀ (f1 f2 : Nat) (params : Params)
    (hashOrder : List Colors → List Colors) (depth : Nat) (guesses answers : List Word),
    1 ≤ f1 → 8 ≤ f1 + depth → 1 ≤ f2 → 8 ≤ f2 + depth →
    solveF f1 params hashOrder depth guesses answers =
    solveF f2 params hashOrder depth guesses answers := by
  intro f1
  induction f1 with
  | zero => intro f2 params hashOrder depth guesses answers h1 h2 h3 h4; omega
  | succ f1 ih =>
    intro f2 params hashOrder depth guesses answers h1 h2 h3 h4
    cases f2 with
    | zero => omega
    | succ f2 =>
      cases answers with
      | nil => rfl
      | cons a as =>
        by_cases hd : 7 ≤ depth
        · rw [solveF_succ_depth f1 _ _ _ _ _ (by simp) hd,
              solveF_succ_depth f2 _ _ _ _ _ (by simp) hd]
        · have hd2 : depth < 7 := by omega
          cases as with
          | nil =>
            rw [solveF_succ_single f1 _ _ _ _ _ hd2, solveF_succ_single f2 _ _ _ _ _ hd2]
          | cons b rest =>
            rw [solveF_succ_big f1 _ _ _ _ _ _ _ hd2, solveF_succ_big f2 _ _ _ _ _ _ _ hd2]
            have hrec2 : solveF f1 params hashOrder (depth + 1) guesses =
                solveF f2 params hashOrder (depth + 1) guesses := by
              funext pool
              exact ih f2 params hashOrder (depth + 1) guesses pool
                (by omega) (by omega) (by omega) (by omega)
            rw [hrec2]

theorem solve_eq_solveF (params : Params) (hashOrder : List Colors → List Colors)
    (depth : Nat) (guesses answers : List Word) :
    solve params hashOrder depth guesses answers =
    solveF 8 params hashOrder depth guesses answers := rfl

theorem solve_eq_min (params : Params) (hashOrder : List Colors → List Colors)
    (depth : Nat) (guesses : List Word) (a b : Word) (rest : List Word) (hd : depth < 7) :
    solve params hashOrder depth guesses (a :: b :: rest) =
      (match candidateResults params hashOrder depth guesses (a :: b :: rest) with
       | Except.error e => Except.error e
       | Except.ok ts => Except.ok (minByTotal ts)) := by
  rw [solve_eq_solveF, show (8 : Nat) = 7 + 1 from rfl,
    solveF_succ_big 7 _ _ _ _ _ _ _ hd]
  have hrec2 : solveF 7 params hashOrder (depth + 1) guesses =
      solve params hashOrder (depth + 1) guesses := by
    funext pool
    rw [solve_eq_solveF]
    exact solveF_fuel_congr 7 8 params hashOrder (depth + 1) guesses pool
      (by omega) (by omega) (by omega) (by omega)
  rw [hrec2]
  simp only [candidateResults]
  cases htop : topGuesses params depth guesses (a :: b :: rest) with
  | error e => rfl
  | ok tops =>
    by_cases hte : tops.isEmpty
    · simp [hte]
    · simp only [hte, if_false, Bool.false_eq_true]
      cases hm : exceptMapM (fun g =>
          solveCandidate (solve params hashOrder (depth + 1) guesses)
            hashOrder g (a :: b :: rest)) tops with
      | error e => rfl
      | ok cands => rfl

/-! ### Every tree `solve` returns is `Produced` -/

theorem solveCandidate_ok_some (recur : List Word → Except Unit (Option Tree))
    (hashOrder : List Colors → List Colors) (guess : Word) (answers : List Word) (t : Tree)
    (h : solveCandidate recur hashOrder guess answers = Except.ok (some t)) :
    ∃ ch : List (Colors × Tree),
      t = Tree.node guess (nodeTotal answers.length ch) (nodeMax ch) ch ∧
      ch.map Prod.fst = hashOrder (firstOccs (answers.map (score guess))) ∧
      ∀ p ∈ ch, recur (answers.filter (fun x => score guess x = p.1)) =
        Except.ok (some p.2) := by
  simp only [solveCandidate] at h
  cases hm : exceptMapM (recurKey recur guess answers)
      (hashOrder (firstOccs (answers.map (score guess)))) with
  | error e => rw [hm] at h; simp at h
  | ok kids =>
    rw [hm] at h
    simp only [Except.ok.injEq] at h
    obtain ⟨hkeys, hall⟩ := exceptMapM_recurKey_ok recur guess answers _ kids hm
    simp only [buildCandidate] at h
    cases hb : buildChildren kids with
    | none => rw [hb] at h; simp at h
    | some ch =>
      rw [hb] at h
      simp only [Option.some.injEq] at h
      obtain ⟨hmap2, hmem⟩ := buildChildren_some kids ch hb
      refine ⟨ch, h.symm, by rw [hmap2, hkeys], ?_⟩
      intro p hp
      exact hall (p.1, some p.2) (hmem p hp)

theorem solveF_produced : ∀ (fuel : Nat) (params : Params)
    (hashOrder : List Colors → List Colors) (depth : Nat) (guesses pool : List Word)
    (t : Tree),
    Admissible hashOrder →
    solveF fuel params hashOrder depth guesses pool = Except.ok (some t) →
    Produced depth pool t := by
  intro fuel
  induction fuel with
  | zero => intro params hashOrder depth guesses pool t _ h; simp [solveF] at h
  | succ fuel ih =>
    intro params hashOrder depth guesses pool t hadm h
    cases pool with
    | nil => rw [solveF_succ_empty] at h; simp at h
    | cons a as =>
      by_cases hd : 7 ≤ depth
      · rw [solveF_succ_depth _ _ _ _ _ _ (by simp) hd] at h
        simp at h
      · have hd2 : depth < 7 := by omega
        cases as with
        | nil =>
          rw [solveF_succ_single _ _ _ _ _ _ hd2] at h
          simp only [Except.ok.injEq, Option.some.injEq] at h
          subst h
          exact Produced.leaf depth a hd2
        | cons b rest =>
          rw [solveF_succ_big _ _ _ _ _ _ _ _ hd2] at h
          cases htop : topGuesses params depth guesses (a :: b :: rest) with
          | error e => rw [htop] at h; simp at h
          | ok tops =>
            rw [htop] at h
            by_cases hte : tops.isEmpty
            · simp [hte] at h
            · simp only [hte, if_false, Bool.false_eq_true] at h
              cases hm : exceptMapM (fun g =>
                  solveCandidate (solveF fuel params hashOrder (depth + 1) guesses)
                    hashOrder g (a :: b :: rest)) tops with
              | error e => rw [hm] at h; simp at h
              | ok cands =>
                rw [hm] at h
                simp only [Except.ok.injEq] at h
                have hmem := minByTotal_some_mem _ _ h
                have hsome : some t ∈ cands := by
                  rcases List.mem_filterMap.1 hmem with ⟨o, ho, hid⟩
                  simp only [id_eq] at hid
                  exact hid ▸ ho
                obtain ⟨g, hg, hcand⟩ := exceptMapM_ok_mem _ tops cands hm (some t) hsome
                obtain ⟨ch, ht, hkeys, hch⟩ := solveCandidate_ok_some _ _ _ _ _ hcand
                subst ht
                refine Produced.node depth (a :: b :: rest) g ch hd2 ?_
                  (by simp only [List.length_cons]; omega) ?_ ?_
                · intro hchnil
                  rw [hchnil] at hkeys
                  have h0 : hashOrder (firstOccs ((a :: b :: rest).map (score g))) = [] := by
                    simpa using hkeys.symm
                  have hperm := hadm (firstOccs ((a :: b :: rest).map (score g)))
                  rw [h0] at hperm
                  have hnil := List.Perm.eq_nil hperm.symm
                  exact firstOccs_ne_nil (by simp) hnil
                · rw [hkeys]
                  exact hadm _
                · intro p hp
                  exact ih params hashOrder (depth + 1) guesses _ p.2 hadm (hch p hp)

/-! ### Consequences of `Produced` -/

theorem natMax_succ_succ (a b : Nat) : Nat.max (a + 1) (b + 1) = Nat.max a b + 1 :=
  Nat.succ_max_succ a b

theorem natMax_zero (a : Nat) : Nat.max 0 a = a :=
  Nat.max_eq_right (Nat.zero_le a)

theorem natMax_add_le (a b c d : Nat) (h1 : a + c ≤ d) (h2 : b + c ≤ d) :
    Nat.max a b + c ≤ d := by
  rcases Nat.le_total a b with h | h
  · have hm : Nat.max a b = b := Nat.max_eq_right h
    rw [hm]
    omega
  · have hm : Nat.max a b = a := Nat.max_eq_left h
    rw [hm]
    omega

theorem foldl_max_succ (l : List (Colors × Tree)) : ∀ (a : Nat),
    l.foldl (fun m p => Nat.max m (p.2.max_guesses + 1)) (a + 1) =
      (l.foldl (fun m p => Nat.max m p.2.max_guesses) a) + 1 := by
  induction l with
  | nil => intro a; simp
  | cons p rest ih =>
    intro a
    simp only [List.foldl_cons]
    rw [natMax_succ_succ]
    exact ih _

theorem nodeMax_eq_one_add (ch : List (Colors × Tree)) (hne : ch ≠ []) :
    nodeMax ch = 1 + (ch.map (fun p => p.2.max_guesses)).foldl Nat.max 0 := by
  cases ch with
  | nil => exact absurd rfl hne
  | cons p rest =>
    simp only [nodeMax, List.foldl_cons, List.map_cons]
    rw [natMax_zero, natMax_zero, List.foldl_map, foldl_max_succ]
    omega

theorem produced_statsOK : ∀ {depth : Nat} {pool : List Word} {t : Tree},
    Produced depth pool t → StatsOK pool t := by
  intro depth pool t h
  induction h with
  | leaf depth a hd => exact StatsOK.leaf [a] a
  | node depth pool g ch hd hne hpool hkeys hch ih =>
    exact StatsOK.node pool g _ _ ch hne (nodeMax_eq_one_add ch hne) rfl ih

theorem produced_max_le : ∀ {depth : Nat} {pool : List Word} {t : Tree},
    Produced depth pool t → t.max_guesses + depth ≤ 7 := by
  intro depth pool t h
  induction h with
  | leaf depth a hd =>
    simp only [Tree.leaf, Tree.max_guesses]
    omega
  | node depth pool g ch hd hne hpool hkeys hch ih =>
    simp only [Tree.max_guesses, nodeMax]
    have hbound : ∀ (l : List (Colors × Tree)),
        (∀ p ∈ l, p.2.max_guesses + (depth + 1) ≤ 7) →
        ∀ (a : Nat), a + depth ≤ 7 →
        l.foldl (fun m p => Nat.max m (p.2.max_guesses + 1)) a + depth ≤ 7 := by
      intro l
      induction l with
      | nil => intro _ a ha; simpa using ha
      | cons p rest ih2 =>
        intro hl a ha
        simp only [List.foldl_cons]
        apply ih2 (fun q hq => hl q (List.mem_cons_of_mem _ hq))
        have h1 := hl p (List.mem_cons_self _ _)
        exact natMax_add_le _ _ _ _ ha (by omega)
    exact hbound ch ih 0 (by omega)

theorem produced_write_len : ∀ {depth : Nat} {pool : List Word} {t : Tree},
    Produced depth pool t → ∀ line ∈ t.write, line.length + depth ≤ 7 := by
  intro depth pool t h
  induction h with
  | leaf depth a hd =>
    intro line hline
    rw [Tree.write_leaf] at hline
    simp only [List.mem_singleton] at hline
    subst hline
    simp only [List.length_singleton]
    omega
  | node depth pool g ch hd hne hpool hkeys hch ih =>
    intro line hline
    rw [Tree.write_node] at hline
    have hchne : ch.isEmpty = false := by
      cases ch with
      | nil => exact absurd rfl hne
      | cons p rest => rfl
    rw [hchne] at hline
    simp only [Bool.false_eq_true, if_false] at hline
    rcases List.mem_flatMap.1 hline with ⟨p, hp, hlp⟩
    rcases List.mem_map.1 hlp with ⟨l2, hl2, rfl⟩
    have := ih p hp l2 hl2
    simp only [List.length_cons]
    omega

theorem produced_singleton {depth : Nat} {a : Word} {t : Tree}
    (h : Produced depth [a] t) : t = Tree.leaf a := by
  cases h with
  | leaf _ _ _ => rfl
  | node _ _ g ch hd hne hpool hkeys hch => simp at hpool

theorem write_mem_child (g : Word) (tot mx : Nat) (ch : List (Colors × Tree))
    (p : Colors × Tree) (hp : p ∈ ch) (line : List Word) (hline : line ∈ p.2.write) :
    (g :: line) ∈ (Tree.node g tot mx ch).write := by
  rw [Tree.write_node]
  have hchne : ch.isEmpty = false := by
    cases ch with
    | nil => exact absurd hp (List.not_mem_nil p)
    | cons q rest => rfl
  rw [hchne]
  simp only [Bool.false_eq_true, if_false]
  exact List.mem_flatMap.2 ⟨p, hp, List.mem_map.2 ⟨line, hline, rfl⟩⟩

theorem produced_green_child {depth : Nat} {pool : List Word} {t : Tree}
    (h : Produced depth pool t) (hnd : pool.Nodup) (hlen : 2 ≤ pool.length)
    (h5 : ∀ w ∈ pool, w.length = 5) (hg : t.guess ∈ pool) :
    (∃ p ∈ t.children, p.1 = green5 ∧ p.2 = Tree.leaf t.guess) ∧
    [t.guess, t.guess] ∈ t.write := by
  cases h with
  | leaf _ _ _ => simp at hlen
  | node _ _ g ch hd hne hpool hkeys hch =>
    have hguess : (Tree.node g (nodeTotal pool.length ch) (nodeMax ch) ch).guess = g := rfl
    rw [hguess] at hg ⊢
    have hgg : score g g = green5 := by
      rw [score_self, h5 g hg]
      rfl
    have hmem1 : green5 ∈ pool.map (score g) := List.mem_map.2 ⟨g, hg, hgg⟩
    have hmem2 : green5 ∈ firstOccs (pool.map (score g)) := mem_firstOccs.2 hmem1
    have hmem3 : green5 ∈ ch.map Prod.fst := hkeys.mem_iff.2 hmem2
    rcases List.mem_map.1 hmem3 with ⟨p, hp, hpfst⟩
    have hfilter : pool.filter (fun a => score g a = p.1) = [g] := by
      rw [hpfst]
      have hcongr : pool.filter (fun a => score g a = green5) =
          pool.filter (fun a => a = g) := by
        apply List.filter_congr
        intro a ha
        have hiff := score_green_iff g a (h5 g hg) (h5 a ha)
        simp only [decide_eq_decide]
        exact hiff.trans eq_comm
      rw [hcongr, List.filter_eq, List.count_eq_one_of_mem hnd hg]
      rfl
    have hprod := hch p hp
    rw [hfilter] at hprod
    have hleaf := produced_singleton hprod
    constructor
    · exact ⟨p, hp, hpfst, hleaf⟩
    · have hline : [g] ∈ p.2.write := by
        rw [hleaf, Tree.write_leaf]
        simp
      exact write_mem_child g _ _ ch p hp [g] hline

/-! ### `solve` never panics on well-formed inputs -/

theorem rankedGuesses_perm (guesses answers : List Word) :
    (rankedGuesses guesses answers).Perm guesses := by
  rw [rankedGuesses]
  have h1 := List.perm_insertionSort rankR (guesses.map (fun g => (rankCost answers g, g)))
  have h2 := h1.map Prod.snd
  rw [List.map_map] at h2
  have h3 : List.map (Prod.snd ∘ fun g : Word => (rankCost answers g, g)) guesses = guesses := by
    have hid : (Prod.snd ∘ fun g : Word => (rankCost answers g, g)) = id := by
      funext g
      rfl
    rw [hid, List.map_id]
  rw [h3] at h2
  exact h2

theorem topGuesses_ok (params : Params) (depth : Nat) (guesses answers : List Word)
    (hg : guesses ≠ []) (hn : 1 ≤ params.n_guesses) (hs : StartOK params) :
    ∃ tops, topGuesses params depth guesses answers = Except.ok tops ∧ tops ≠ [] := by
  rw [topGuesses]
  by_cases hcond : depth = 0 ∧ params.starting_word.isSome = true
  · rcases hs with hnone | ⟨w, hw, hlen⟩
    · rw [hnone] at hcond
      simp at hcond
    · rw [if_pos hcond, hw]
      simp [toWordE, hlen]
  · rw [if_neg hcond]
    refine ⟨_, rfl, ?_⟩
    cases hrk : rankedGuesses guesses answers with
    | nil =>
      have hlen2 := (rankedGuesses_perm guesses answers).length_eq
      rw [hrk] at hlen2
      cases guesses with
      | nil => exact absurd rfl hg
      | cons x xs => simp at hlen2
    | cons y ys =>
      cases hn2 : params.n_guesses with
      | zero => omega
      | succ n => simp [List.take_succ_cons]

theorem solveF_isOk : ∀ (fuel : Nat) (params : Params)
    (hashOrder : List Colors → List Colors) (depth : Nat) (guesses pool : List Word),
    Admissible hashOrder →
    pool ≠ [] → guesses ≠ [] → 1 ≤ params.n_guesses → StartOK params →
    1 ≤ fuel → 8 ≤ fuel + depth →
    ∃ r, solveF fuel params hashOrder depth guesses pool = Except.ok r := by
  intro fuel
  induction fuel with
  | zero => intro _ _ _ _ _ _ _ _ _ _ h1 _; omega
  | succ fuel ih =>
    intro params hashOrder depth guesses pool hadm hpool hg hn hs h1 h2
    by_cases hd : 7 ≤ depth
    · exact ⟨none, solveF_succ_depth _ _ _ _ _ _ hpool hd⟩
    · have hd2 : depth < 7 := by omega
      cases pool with
      | nil => exact absurd rfl hpool
      | cons a as =>
        cases as with
        | nil => exact ⟨some (Tree.leaf a), solveF_succ_single _ _ _ _ _ _ hd2⟩
        | cons b rest =>
          rw [solveF_succ_big _ _ _ _ _ _ _ _ hd2]
          obtain ⟨tops, htop, htne⟩ :=
            topGuesses_ok params depth guesses (a :: b :: rest) hg hn hs
          have htef : tops.isEmpty = false := by
            cases tops with
            | nil => exact absurd rfl htne
            | cons t ts => rfl
          simp only [htop, htef, Bool.false_eq_true, if_false]
          have hmok : ∀ g ∈ tops, ∃ y,
              solveCandidate (solveF fuel params hashOrder (depth + 1) guesses)
                hashOrder g (a :: b :: rest) = Except.ok y := by
            intro g hgm
            rw [solveCandidate]
            have hallkeys : ∀ c ∈ hashOrder (firstOccs ((a :: b :: rest).map (score g))),
                ∃ y, recurKey (solveF fuel params hashOrder (depth + 1) guesses)
                  g (a :: b :: rest) c = Except.ok y := by
              intro c hc
              rw [recurKey]
              have hc2 : c ∈ firstOccs ((a :: b :: rest).map (score g)) :=
                (hadm _).mem_iff.1 hc
              have hc3 : c ∈ (a :: b :: rest).map (score g) := mem_firstOccs.1 hc2
              rcases List.mem_map.1 hc3 with ⟨x, hx, hsc⟩
              have hgrp : (a :: b :: rest).filter (fun v => score g v = c) ≠ [] :=
                List.ne_nil_of_mem (List.mem_filter.2 ⟨hx, by simp [hsc]⟩)
              obtain ⟨r, hr⟩ := ih params hashOrder (depth + 1) guesses _ hadm hgrp hg hn hs
                (by omega) (by omega)
              exact ⟨(c, r), by rw [hr]⟩
            obtain ⟨kids, hkids⟩ := (exceptMapM_ok_iff _ _).2 hallkeys
            rw [hkids]
            exact ⟨buildCandidate g (a :: b :: rest).length kids, rfl⟩
          obtain ⟨cands, hcands⟩ := (exceptMapM_ok_iff _ _).2 hmok
          rw [hcands]
          exact ⟨minByTotal (cands.filterMap id), rfl⟩

/-! ### The ranking order -/

theorem wordLE_total : ∀ (x y : Word), wordLE x y = true ∨ wordLE y x = true := by
  intro x
  induction x with
  | nil => intro y; left; simp [wordLE]
  | cons a as ih =>
    intro y
    cases y with
    | nil => right; simp [wordLE]
    | cons b bs =>
      by_cases hab : a < b
      · left; simp [wordLE, hab]
      · by_cases hba : b < a
        · right; simp [wordLE, hba]
        · have hev : a = b := by omega
          subst hev
          rcases ih bs with h | h
          · left; simp [wordLE, h]
          · right; simp [wordLE, h]

theorem wordLE_trans : ∀ (x y z : Word),
    wordLE x y = true → wordLE y z = true → wordLE x z = true := by
  intro x
  induction x with
  | nil => intro y z _ _; simp [wordLE]
  | cons a as ih =>
    intro y z hxy hyz
    cases y with
    | nil => simp [wordLE] at hxy
    | cons b bs =>
      cases z with
      | nil => simp [wordLE] at hyz
      | cons c cs =>
        simp only [wordLE, Bool.or_eq_true, Bool.and_eq_true, decide_eq_true_eq] at hxy hyz ⊢
        rcases hxy with h1 | ⟨h1, h1r⟩
        · rcases hyz with h2 | ⟨h2, h2r⟩
          · left; omega
          · left; omega
        · rcases hyz with h2 | ⟨h2, h2r⟩
          · left; omega
          · right; exact ⟨by omega, ih bs cs h1r h2r⟩

instance : IsTotal (ℚ × Word) rankR where
  total := by
    intro x y
    rcases lt_trichotomy x.1 y.1 with h | h | h
    · exact Or.inl (Or.inl h)
    · rcases wordLE_total x.2 y.2 with hw | hw
      · exact Or.inl (Or.inr ⟨h, hw⟩)
      · exact Or.inr (Or.inr ⟨h.symm, hw⟩)
    · exact Or.inr (Or.inl h)

instance : IsTrans (ℚ × Word) rankR where
  trans := by
    intro x y z hxy hyz
    rcases hxy with h1 | ⟨h1, h1w⟩
    · rcases hyz with h2 | ⟨h2, h2w⟩
      · exact Or.inl (lt_trans h1 h2)
      · exact Or.inl (h2 ▸ h1)
    · rcases hyz with h2 | ⟨h2, h2w⟩
      · exact Or.inl (h1 ▸ h2)
      · exact Or.inr ⟨h1.trans h2, wordLE_trans _ _ _ h1w h2w⟩

theorem rankedGuesses_sorted (guesses answers : List Word) :
    (rankedGuesses guesses answers).Pairwise (fun g1 g2 =>
      rankCost answers g1 < rankCost answers g2 ∨
      (rankCost answers g1 = rankCost answers g2 ∧ wordLE g1 g2 = true)) := by
  rw [rankedGuesses]
  have hsorted := List.sorted_insertionSort rankR
    (guesses.map (fun g => (rankCost answers g, g)))
  have hmemP : ∀ p ∈ List.insertionSort rankR
      (guesses.map (fun g => (rankCost answers g, g))), p.1 = rankCost answers p.2 := by
    intro p hp
    have hp2 : p ∈ guesses.map (fun g => (rankCost answers g, g)) :=
      (List.perm_insertionSort rankR _).mem_iff.1 hp
    rcases List.mem_map.1 hp2 with ⟨g, hgm, rfl⟩
    rfl
  rw [List.pairwise_map]
  refine List.Pairwise.imp_of_mem ?_ hsorted
  intro p q hp hq hrel
  rcases hrel with h | ⟨h, hw⟩
  · left
    rw [← hmemP p hp, ← hmemP q hq]
    exact h
  · right
    rw [← hmemP p hp, ← hmemP q hq]
    exact ⟨h, hw⟩

theorem topGuesses_take (params : Params) (depth : Nat) (guesses answers : List Word)
    (hs : params.starting_word = none) :
    topGuesses params depth guesses answers =
      Except.ok ((rankedGuesses guesses answers).take params.n_guesses) := by
  rw [topGuesses, if_neg]
  simp [hs]

/-! ### Trees equal as mappings: basic facts -/

theorem TEquiv_guess {t1 t2 : Tree} (h : TEquiv t1 t2) : t1.guess = t2.guess := by
  cases h
  rfl

theorem TEquiv_total {t1 t2 : Tree} (h : TEquiv t1 t2) :
    t1.total_guesses = t2.total_guesses := by
  cases h
  rfl

theorem TEquiv_max {t1 t2 : Tree} (h : TEquiv t1 t2) :
    t1.max_guesses = t2.max_guesses := by
  cases h
  rfl

theorem TEquiv_leaf (g : Word) : TEquiv (Tree.leaf g) (Tree.leaf g) := by
  refine TEquiv.mk g 1 1 [] [] (List.Perm.refl _) List.nodup_nil ?_
  intro c s1 s2 h1 _
  exact absurd h1 (List.not_mem_nil _)

theorem natMax_le_iff (a b c : Nat) : Nat.max a b ≤ c ↔ a ≤ c ∧ b ≤ c := Nat.max_le

theorem le_natMax_left (a b : Nat) : a ≤ Nat.max a b := Nat.le_max_left a b

theorem le_natMax_right (a b : Nat) : b ≤ Nat.max a b := Nat.le_max_right a b

theorem natMax_right_comm (a b c : Nat) :
    Nat.max (Nat.max a b) c = Nat.max (Nat.max a c) b := by
  apply Nat.le_antisymm
  · rw [natMax_le_iff, natMax_le_iff]
    refine ⟨⟨?_, ?_⟩, ?_⟩
    · exact Nat.le_trans (le_natMax_left a c) (le_natMax_left _ _)
    · exact le_natMax_right _ _
    · exact Nat.le_trans (le_natMax_right a c) (le_natMax_left _ _)
  · rw [natMax_le_iff, natMax_le_iff]
    refine ⟨⟨?_, ?_⟩, ?_⟩
    · exact Nat.le_trans (le_natMax_left a b) (le_natMax_left _ _)
    · exact le_natMax_right _ _
    · exact Nat.le_trans (le_natMax_right a b) (le_natMax_left _ _)

theorem foldl_natMax_perm (φ : Colors → Nat) :
    ∀ (l1 l2 : List Colors), l1.Perm l2 → ∀ (a : Nat),
    l1.foldl (fun m c => Nat.max m (φ c)) a = l2.foldl (fun m c => Nat.max m (φ c)) a := by
  intro l1 l2 hperm
  induction hperm with
  | nil => intro a; rfl
  | cons x h ih =>
    intro a
    simp only [List.foldl_cons]
    exact ih _
  | swap x y l =>
    intro a
    simp only [List.foldl_cons]
    rw [natMax_right_comm]
  | trans h1 h2 ih1 ih2 =>
    intro a
    rw [ih1, ih2]

/-! ### Equal mappings serialize to the same lines up to order -/

theorem flatMap_write_perm (g : Word) :
    ∀ (ch1 ch2 : List (Colors × Tree)),
    (ch1.map Prod.fst).Perm (ch2.map Prod.fst) →
    (∀ c s1 s2, (c, s1) ∈ ch1 → (c, s2) ∈ ch2 → (s1.write).Perm (s2.write)) →
    (ch1.flatMap (fun p => (p.2.write).map (fun line => g :: line))).Perm
      (ch2.flatMap (fun p => (p.2.write).map (fun line => g :: line))) := by
  intro ch1
  induction ch1 with
  | nil =>
    intro ch2 hperm _
    have h2 : ch2.map Prod.fst = [] := (List.Perm.eq_nil hperm.symm)
    have h3 : ch2 = [] := List.map_eq_nil_iff.1 h2
    subst h3
    rfl
  | cons p rest ih =>
    intro ch2 hperm hpt
    have hp1 : p.1 ∈ ch2.map Prod.fst := hperm.mem_iff.1 (by simp)
    rcases List.mem_map.1 hp1 with ⟨q, hq, hq1⟩
    rcases List.append_of_mem hq with ⟨l1, l2, rfl⟩
    have hqp : q = (p.1, q.2) := by
      rw [← hq1]
    have hlines : (p.2.write).Perm (q.2.write) := by
      apply hpt p.1 p.2 q.2 (by simp)
      rw [← hqp]
      exact hq
    have hkeys2 : (List.map Prod.fst rest).Perm (List.map Prod.fst (l1 ++ l2)) := by
      have h1 : (List.map Prod.fst (p :: rest)).Perm
          (List.map Prod.fst (l1 ++ q :: l2)) := hperm
      rw [List.map_cons, List.map_append, List.map_cons] at h1
      have h2 : (List.map Prod.fst l1 ++ q.1 :: List.map Prod.fst l2).Perm
          (q.1 :: (List.map Prod.fst l1 ++ List.map Prod.fst l2)) := List.perm_middle
      have h3 := h1.trans h2
      rw [hq1] at h3
      have h4 := h3.cons_inv
      rw [List.map_append]
      exact h4
    have hpt2 : ∀ c s1 s2, (c, s1) ∈ rest → (c, s2) ∈ l1 ++ l2 → (s1.write).Perm (s2.write) := by
      intro c s1 s2 h1 h2
      apply hpt c s1 s2 (List.mem_cons_of_mem _ h1)
      rcases List.mem_append.1 h2 with h3 | h3
      · exact List.mem_append.2 (Or.inl h3)
      · exact List.mem_append.2 (Or.inr (List.mem_cons_of_mem _ h3))
    have hrec := ih (l1 ++ l2) hkeys2 hpt2
    rw [List.flatMap_cons, List.flatMap_append, List.flatMap_cons]
    rw [List.flatMap_append] at hrec
    have hstep1 : ((p.2.write).map (fun line => g :: line) ++
          (rest.flatMap (fun p => (p.2.write).map (fun line => g :: line)))).Perm
        ((q.2.write).map (fun line => g :: line) ++
          (l1.flatMap (fun p => (p.2.write).map (fun line => g :: line)) ++
           l2.flatMap (fun p => (p.2.write).map (fun line => g :: line)))) :=
      List.Perm.append (hlines.map _) hrec
    refine hstep1.trans ?_
    rw [← List.append_assoc]
    have hcomm : ((q.2.write).map (fun line => g :: line) ++
        l1.flatMap (fun p => (p.2.write).map (fun line => g :: line))).Perm
        (l1.flatMap (fun p => (p.2.write).map (fun line => g :: line)) ++
          (q.2.write).map (fun line => g :: line)) := List.perm_append_comm
    exact (hcomm.append_right _).trans (by rw [List.append_assoc])

theorem TEquiv_write_perm {t1 t2 : Tree} (h : TEquiv t1 t2) :
    (t1.write).Perm (t2.write) := by
  induction h with
  | mk g tot mx ch1 ch2 hperm hnd hch ih =>
    rw [Tree.write_node, Tree.write_node]
    cases hc1 : ch1 with
    | nil =>
      have h2 : ch2.map Prod.fst = [] := by
        rw [hc1] at hperm
        exact (List.Perm.eq_nil hperm.symm)
      have h3 : ch2 = [] := List.map_eq_nil_iff.1 h2
      subst h3
      simp
    | cons p rest =>
      have h2 : ch2 ≠ [] := by
        intro hnil
        rw [hnil, hc1] at hperm
        have := List.Perm.eq_nil hperm
        simp at this
      have hc2f : ch2.isEmpty = false := by
        cases ch2 with
        | nil => exact absurd rfl h2
        | cons _ _ => rfl
      rw [← hc1]
      have hc1f : ch1.isEmpty = false := by
        rw [hc1]
        rfl
      rw [hc1f, hc2f]
      simp only [Bool.false_eq_true, if_false]
      exact flatMap_write_perm g ch1 ch2 hperm ih

/-! ### The candidate construction respects mapping-equality -/

theorem exceptMapM_recurKey_map (recur : List Word → Except Unit (Option Tree))
    (guess : Word) (answers : List Word) : ∀ (keys : List Colors),
    (∀ c ∈ keys, ∃ r, recur (answers.filter (fun a => score guess a = c)) = Except.ok r) →
    exceptMapM (recurKey recur guess answers) keys =
      Except.ok (keys.map (fun c =>
        (c, okD none (recur (answers.filter (fun a => score guess a = c)))))) := by
  intro keys
  induction keys with
  | nil => intro _; simp [exceptMapM]
  | cons c cs ih =>
    intro hall
    obtain ⟨r, hr⟩ := hall c (List.mem_cons_self _ _)
    have htail := ih (fun c2 h2 => hall c2 (List.mem_cons_of_mem _ h2))
    simp [exceptMapM, recurKey, hr, htail, okD]

theorem buildChildren_map_getD (e : Colors → Option Tree) :
    ∀ (keys : List Colors), (∀ c ∈ keys, (e c).isSome = true) →
    buildChildren (keys.map (fun c => (c, e c))) =
      some (keys.map (fun c => (c, (e c).getD (Tree.leaf [])))) := by
  intro keys
  induction keys with
  | nil => intro _; simp [buildChildren]
  | cons c cs ih =>
    intro hall
    have hc := hall c (List.mem_cons_self _ _)
    cases he : e c with
    | none => rw [he] at hc; simp at hc
    | some t =>
      have htail := ih (fun c2 h2 => hall c2 (List.mem_cons_of_mem _ h2))
      simp [buildChildren, he, htail]

theorem buildChildren_none_of_mem_none (kids : List (Colors × Option Tree))
    (c : Colors) (hmem : (c, (none : Option Tree)) ∈ kids) :
    buildChildren kids = none := by
  cases hb : buildChildren kids with
  | none => rfl
  | some ch =>
    have hall := (buildChildren_isSome_iff kids).1 ⟨ch, hb⟩
    have := hall (c, none) hmem
    simp at this

theorem nodeTotal_map (n : Nat) (keys : List Colors) (e : Colors → Tree) :
    nodeTotal n (keys.map (fun c => (c, e c))) =
      n + ((keys.filter (fun c => c ≠ green5)).map (fun c => (e c).total_guesses)).sum := by
  rw [nodeTotal, List.filter_map]
  have h1 : ((fun (p : Colors × Tree) => decide ¬p.1 = green5) ∘ (fun c => (c, e c))) =
      (fun c : Colors => decide ¬c = green5) := by
    funext c
    rfl
  rw [h1, List.map_map]
  rfl

theorem nodeMax_map (keys : List Colors) (e : Colors → Tree) :
    nodeMax (keys.map (fun c => (c, e c))) =
      keys.foldl (fun m c => Nat.max m ((e c).max_guesses + 1)) 0 := by
  rw [nodeMax, List.foldl_map]

theorem sum_filter_map_perm (φ1 φ2 : Colors → Nat) (q : Colors → Bool)
    (k1 k2 base : List Colors) (h1 : k1.Perm base) (h2 : k2.Perm base)
    (hpt : ∀ c ∈ base, φ1 c = φ2 c) :
    ((k1.filter q).map φ1).sum = ((k2.filter q).map φ2).sum := by
  have e1 : ((k1.filter q).map φ1).sum = ((base.filter q).map φ1).sum :=
    ((h1.filter q).map φ1).sum_eq
  have e2 : ((k2.filter q).map φ2).sum = ((base.filter q).map φ2).sum :=
    ((h2.filter q).map φ2).sum_eq
  have e3 : (base.filter q).map φ1 = (base.filter q).map φ2 :=
    List.map_congr_left (fun c hc => hpt c (List.mem_of_mem_filter hc))
  rw [e1, e3]
  exact e2.symm

theorem foldl_max_congr (φ1 φ2 : Colors → Nat) :
    ∀ (l : List Colors), (∀ c ∈ l, φ1 c = φ2 c) → ∀ (a : Nat),
    l.foldl (fun m c => Nat.max m (φ1 c)) a = l.foldl (fun m c => Nat.max m (φ2 c)) a := by
  intro l
  induction l with
  | nil => intro _ a; rfl
  | cons c cs ih =>
    intro hpt a
    simp only [List.foldl_cons]
    rw [hpt c (List.mem_cons_self _ _)]
    exact ih (fun d hd => hpt d (List.mem_cons_of_mem _ hd)) _

theorem foldl_max_map_perm (φ1 φ2 : Colors → Nat) (k1 k2 base : List Colors)
    (h1 : k1.Perm base) (h2 : k2.Perm base) (hpt : ∀ c ∈ base, φ1 c = φ2 c) :
    k1.foldl (fun m c => Nat.max m (φ1 c)) 0 = k2.foldl (fun m c => Nat.max m (φ2 c)) 0 := by
  rw [foldl_natMax_perm φ1 k1 base h1 0, foldl_natMax_perm φ2 k2 base h2 0]
  exact foldl_max_congr φ1 φ2 base hpt 0

theorem buildCandidate_rel (guess : Word) (n : Nat) (keys1 keys2 base : List Colors)
    (h1 : keys1.Perm base) (h2 : keys2.Perm base) (hnd : base.Nodup)
    (e1 e2 : Colors → Option Tree)
    (hpt : ∀ c ∈ base, OptTreeEquiv (e1 c) (e2 c)) :
    OptTreeEquiv (buildCandidate guess n (keys1.map (fun c => (c, e1 c))))
      (buildCandidate guess n (keys2.map (fun c => (c, e2 c)))) := by
  by_cases hsome : ∀ c ∈ base, (e1 c).isSome = true
  · have hsome2 : ∀ c ∈ base, (e2 c).isSome = true := by
      intro c hc
      have hrel := hpt c hc
      cases he1 : e1 c with
      | none =>
        have := hsome c hc
        rw [he1] at this
        simp at this
      | some t1 =>
        cases he2 : e2 c with
        | none => rw [he1, he2] at hrel; exact absurd hrel (by simp [OptTreeEquiv])
        | some t2 => simp
    have hb1 := buildChildren_map_getD e1 keys1 (fun c hc => hsome c (h1.mem_iff.1 hc))
    have hb2 := buildChildren_map_getD e2 keys2 (fun c hc => hsome2 c (h2.mem_iff.1 hc))
    rw [buildCandidate, buildCandidate, hb1, hb2]
    simp only [OptTreeEquiv]
    have htot : nodeTotal n (keys2.map (fun c => (c, (e2 c).getD (Tree.leaf [])))) =
        nodeTotal n (keys1.map (fun c => (c, (e1 c).getD (Tree.leaf [])))) := by
      rw [nodeTotal_map, nodeTotal_map]
      congr 1
      apply sum_filter_map_perm _ _ _ keys2 keys1 base h2 h1
      intro c hc
      have hrel := hpt c hc
      have hs1 := hsome c hc
      cases he1 : e1 c with
      | none => rw [he1] at hs1; simp at hs1
      | some t1 =>
        cases he2 : e2 c with
        | none =>
          have hs2 := hsome2 c hc
          rw [he2] at hs2
          simp at hs2
        | some t2 =>
          rw [he1, he2] at hrel
          simp only [OptTreeEquiv] at hrel
          simp [TEquiv_total hrel]
    have hmx : nodeMax (keys2.map (fun c => (c, (e2 c).getD (Tree.leaf [])))) =
        nodeMax (keys1.map (fun c => (c, (e1 c).getD (Tree.leaf [])))) := by
      rw [nodeMax_map, nodeMax_map]
      apply foldl_max_map_perm _ _ keys2 keys1 base h2 h1
      intro c hc
      have hrel := hpt c hc
      have hs1 := hsome c hc
      cases he1 : e1 c with
      | none => rw [he1] at hs1; simp at hs1
      | some t1 =>
        cases he2 : e2 c with
        | none =>
          have hs2 := hsome2 c hc
          rw [he2] at hs2
          simp at hs2
        | some t2 =>
          rw [he1, he2] at hrel
          simp only [OptTreeEquiv] at hrel
          simp [TEquiv_max hrel]
    rw [htot, hmx]
    have hkeymap1 : (keys1.map (fun c => (c, (e1 c).getD (Tree.leaf [])))).map Prod.fst =
        keys1 := by
      rw [List.map_map]
      have hid : (Prod.fst ∘ fun c : Colors => (c, (e1 c).getD (Tree.leaf []))) = id := by
        funext c
        rfl
      rw [hid, List.map_id]
    have hkeymap2 : (keys2.map (fun c => (c, (e2 c).getD (Tree.leaf [])))).map Prod.fst =
        keys2 := by
      rw [List.map_map]
      have hid : (Prod.fst ∘ fun c : Colors => (c, (e2 c).getD (Tree.leaf []))) = id := by
        funext c
        rfl
      rw [hid, List.map_id]
    refine TEquiv.mk guess _ _ _ _ ?_ ?_ ?_
    · rw [hkeymap1, hkeymap2]
      exact h1.trans h2.symm
    · rw [hkeymap1]
      exact hnd.perm h1.symm
    · intro c s1 s2 hm1 hm2
      rcases List.mem_map.1 hm1 with ⟨c1, hc1, heq1⟩
      rcases List.mem_map.1 hm2 with ⟨c2, hc2, heq2⟩
      rw [Prod.mk.injEq] at heq1 heq2
      obtain ⟨hceq1, hs1⟩ := heq1
      obtain ⟨hceq2, hs2⟩ := heq2
      rw [hceq1] at hc1
      rw [hceq2] at hc2
      rw [hceq1] at hs1
      rw [hceq2] at hs2
      have hcb : c ∈ base := h1.mem_iff.1 hc1
      have hrel := hpt c hcb
      have hsm := hsome c hcb
      cases he1 : e1 c with
      | none => rw [he1] at hsm; simp at hsm
      | some t1 =>
        cases he2 : e2 c with
        | none =>
          have hsm2 := hsome2 c hcb
          rw [he2] at hsm2
          simp at hsm2
        | some t2 =>
          rw [he1] at hs1
          rw [he2] at hs2
          rw [he1, he2] at hrel
          simp only [OptTreeEquiv] at hrel
          rw [← hs1, ← hs2]
          simpa using hrel
  · push_neg at hsome
    obtain ⟨c0, hc0, hn1⟩ := hsome
    have he1 : e1 c0 = none := by
      cases he : e1 c0 with
      | none => rfl
      | some t => rw [he] at hn1; simp at hn1
    have he2 : e2 c0 = none := by
      have hrel := hpt c0 hc0
      rw [he1] at hrel
      cases he : e2 c0 with
      | none => rfl
      | some t => rw [he] at hrel; exact absurd hrel (by simp [OptTreeEquiv])
    have hm1 : (c0, (none : Option Tree)) ∈ keys1.map (fun c => (c, e1 c)) := by
      rw [← he1]
      exact List.mem_map.2 ⟨c0, h1.mem_iff.2 hc0, rfl⟩
    have hm2 : (c0, (none : Option Tree)) ∈ keys2.map (fun c => (c, e2 c)) := by
      rw [← he2]
      exact List.mem_map.2 ⟨c0, h2.mem_iff.2 hc0, rfl⟩
    rw [buildCandidate, buildCandidate,
      buildChildren_none_of_mem_none _ c0 hm1, buildChildren_none_of_mem_none _ c0 hm2]
    simp [OptTreeEquiv]

theorem ExceptRel_ok_ok {α : Type} (R : α → α → Prop) (a b : α) :
    ExceptRel R (Except.ok a) (Except.ok b) = R a b := rfl

theorem OptTreeEquiv_some_some (t1 t2 : Tree) :
    OptTreeEquiv (some t1) (some t2) = TEquiv t1 t2 := rfl

theorem OptTreeEquiv_none_none : OptTreeEquiv none none = True := rfl

theorem solveCandidate_rel (recur1 recur2 : List Word → Except Unit (Option Tree))
    (hashOrder1 hashOrder2 : List Colors → List Colors)
    (hadm1 : Admissible hashOrder1) (hadm2 : Admissible hashOrder2)
    (guess : Word) (answers : List Word)
    (hrec : ∀ pool, ExceptRel OptTreeEquiv (recur1 pool) (recur2 pool)) :
    ExceptRel OptTreeEquiv (solveCandidate recur1 hashOrder1 guess answers)
      (solveCandidate recur2 hashOrder2 guess answers) := by
  by_cases hok : ∀ c ∈ firstOccs (answers.map (score guess)),
      ∃ r, recur1 (answers.filter (fun a => score guess a = c)) = Except.ok r
  · have hok2 : ∀ c ∈ firstOccs (answers.map (score guess)),
        ∃ r, recur2 (answers.filter (fun a => score guess a = c)) = Except.ok r := by
      intro c hc
      obtain ⟨r, hr⟩ := hok c hc
      have hrel := hrec (answers.filter (fun a => score guess a = c))
      rw [hr] at hrel
      cases h2 : recur2 (answers.filter (fun a => score guess a = c)) with
      | error e => rw [h2] at hrel; exact absurd hrel (by simp [ExceptRel])
      | ok r2 => exact ⟨r2, rfl⟩
    have hm1 := exceptMapM_recurKey_map recur1 guess answers
      (hashOrder1 (firstOccs (answers.map (score guess))))
      (fun c hc => hok c ((hadm1 _).mem_iff.1 hc))
    have hm2 := exceptMapM_recurKey_map recur2 guess answers
      (hashOrder2 (firstOccs (answers.map (score guess))))
      (fun c hc => hok2 c ((hadm2 _).mem_iff.1 hc))
    have hc1 : solveCandidate recur1 hashOrder1 guess answers =
        Except.ok (buildCandidate guess answers.length
          ((hashOrder1 (firstOccs (answers.map (score guess)))).map (fun c =>
            (c, okD none (recur1 (answers.filter (fun a => score guess a = c))))))) := by
      rw [solveCandidate, hm1]
    have hc2 : solveCandidate recur2 hashOrder2 guess answers =
        Except.ok (buildCandidate guess answers.length
          ((hashOrder2 (firstOccs (answers.map (score guess)))).map (fun c =>
            (c, okD none (recur2 (answers.filter (fun a => score guess a = c))))))) := by
      rw [solveCandidate, hm2]
    rw [hc1, hc2, ExceptRel_ok_ok]
    apply buildCandidate_rel guess answers.length _ _
      (firstOccs (answers.map (score guess))) (hadm1 _) (hadm2 _) (nodup_firstOccs _)
    intro c hc
    have hrel := hrec (answers.filter (fun a => score guess a = c))
    obtain ⟨r1, hr1⟩ := hok c hc
    obtain ⟨r2, hr2⟩ := hok2 c hc
    rw [hr1, hr2] at hrel
    rw [hr1, hr2]
    simpa [okD, ExceptRel_ok_ok] using hrel
  · push_neg at hok
    obtain ⟨c0, hc0, hbad⟩ := hok
    have hbad2 : ∀ r, recur2 (answers.filter (fun a => score guess a = c0)) ≠ Except.ok r := by
      intro r h2
      have hrel := hrec (answers.filter (fun a => score guess a = c0))
      rw [h2] at hrel
      cases h1 : recur1 (answers.filter (fun a => score guess a = c0)) with
      | error e => rw [h1] at hrel; exact absurd hrel (by simp [ExceptRel])
      | ok r1 => exact hbad r1 h1
    rw [solveCandidate, solveCandidate]
    cases hm1 : exceptMapM (recurKey recur1 guess answers)
        (hashOrder1 (firstOccs (answers.map (score guess)))) with
    | ok kids =>
      exfalso
      have hall := (exceptMapM_ok_iff (recurKey recur1 guess answers) _).1 ⟨kids, hm1⟩
      obtain ⟨y, hy⟩ := hall c0 ((hadm1 _).mem_iff.2 hc0)
      rw [recurKey] at hy
      cases h1 : recur1 (answers.filter (fun a => score guess a = c0)) with
      | error e => rw [h1] at hy; simp at hy
      | ok r => exact hbad r h1
    | error e1 =>
      cases hm2 : exceptMapM (recurKey recur2 guess answers)
          (hashOrder2 (firstOccs (answers.map (score guess)))) with
      | ok kids =>
        exfalso
        have hall := (exceptMapM_ok_iff (recurKey recur2 guess answers) _).1 ⟨kids, hm2⟩
        obtain ⟨y, hy⟩ := hall c0 ((hadm2 _).mem_iff.2 hc0)
        rw [recurKey] at hy
        cases h2 : recur2 (answers.filter (fun a => score guess a = c0)) with
        | error e => rw [h2] at hy; simp at hy
        | ok r => exact hbad2 r h2
      | error e2 => simp [ExceptRel]

theorem solveF_rel : ∀ (fuel : Nat) (params : Params)
    (hashOrder1 hashOrder2 : List Colors → List Colors),
    Admissible hashOrder1 → Admissible hashOrder2 →
    ∀ (depth : Nat) (guesses pool : List Word),
    ExceptRel OptTreeEquiv (solveF fuel params hashOrder1 depth guesses pool)
      (solveF fuel params hashOrder2 depth guesses pool) := by
  intro fuel
  induction fuel with
  | zero =>
    intro params p1 p2 h1 h2 depth guesses pool
    simp [solveF, ExceptRel]
  | succ fuel ih =>
    intro params p1 p2 hadm1 hadm2 depth guesses pool
    cases pool with
    | nil =>
      rw [solveF_succ_empty, solveF_succ_empty]
      simp [ExceptRel]
    | cons a as =>
      by_cases hd : 7 ≤ depth
      · rw [solveF_succ_depth _ _ _ _ _ _ (by simp) hd,
            solveF_succ_depth _ _ _ _ _ _ (by simp) hd]
        simp [ExceptRel, OptTreeEquiv]
      · have hd2 : depth < 7 := by omega
        cases as with
        | nil =>
          rw [solveF_succ_single _ _ _ _ _ _ hd2, solveF_succ_single _ _ _ _ _ _ hd2,
            ExceptRel_ok_ok, OptTreeEquiv_some_some]
          exact TEquiv_leaf a
        | cons b rest =>
          rw [solveF_succ_big _ _ _ _ _ _ _ _ hd2, solveF_succ_big _ _ _ _ _ _ _ _ hd2]
          cases htop : topGuesses params depth guesses (a :: b :: rest) with
          | error e => simp [ExceptRel]
          | ok tops =>
            by_cases hte : tops.isEmpty
            · simp [hte, ExceptRel]
            · simp only [hte, Bool.false_eq_true, if_false]
              have hmrel := exceptMapM_rel OptTreeEquiv
                (fun g => solveCandidate (solveF fuel params p1 (depth + 1) guesses)
                  p1 g (a :: b :: rest))
                (fun g => solveCandidate (solveF fuel params p2 (depth + 1) guesses)
                  p2 g (a :: b :: rest))
                tops
                (fun g _ => solveCandidate_rel _ _ _ _ hadm1 hadm2 g (a :: b :: rest)
                  (fun pool2 => ih params p1 p2 hadm1 hadm2 (depth + 1) guesses pool2))
              cases hm1 : exceptMapM
                  (fun g => solveCandidate (solveF fuel params p1 (depth + 1) guesses)
                    p1 g (a :: b :: rest)) tops with
              | error e1 =>
                cases hm2 : exceptMapM
                    (fun g => solveCandidate (solveF fuel params p2 (depth + 1) guesses)
                      p2 g (a :: b :: rest)) tops with
                | error e2 => simp [ExceptRel]
                | ok c2 =>
                  rw [hm1, hm2] at hmrel
                  exact absurd hmrel (by simp [ExceptAll2])
              | ok cands1 =>
                cases hm2 : exceptMapM
                    (fun g => solveCandidate (solveF fuel params p2 (depth + 1) guesses)
                      p2 g (a :: b :: rest)) tops with
                | error e2 =>
                  rw [hm1, hm2] at hmrel
                  exact absurd hmrel (by simp [ExceptAll2])
                | ok cands2 =>
                  rw [hm1, hm2] at hmrel
                  have hf2 : List.Forall₂ OptTreeEquiv cands1 cands2 := hmrel
                  have hts := filterMap_id_forall2 _ _ hf2
                  rcases minByTotal_forall2 TEquiv (fun x y h => TEquiv_total h) _ _ hts with
                    ⟨hn1, hn2⟩ | ⟨t1, t2, hs1, hs2, hteq⟩
                  · rw [ExceptRel_ok_ok, hn1, hn2, OptTreeEquiv_none_none]
                    trivial
                  · rw [ExceptRel_ok_ok, hs1, hs2, OptTreeEquiv_some_some]
                    exact hteq

theorem count_map_score (g : Word) (answers : List Word) (c : Colors) :
    (answers.map (score g)).count c =
      (answers.filter (fun a => score g a = c)).length := by
  induction answers with
  | nil => rfl
  | cons a as ih =>
    simp only [List.map_cons, List.count_cons, List.filter_cons]
    by_cases h : score g a = c
    · simp [h, ih]
    · simp [h, ih]

/-! ### The claims -/

/-- C1: the feedback scorer implements the two-pass algorithm the
specification describes — pass 1 marks Exact matches and consumes both
symbols; pass 2 scans the remaining positions in increasing order and marks
Present by consuming the first unconsumed occurrence of the guess symbol in
the answer, leaving every other position Absent (`score` agrees with the
spec-worded `scoreSpec` on words without the sentinel byte) — and on the
spec's concrete vectors it returns `bbybb` and `bybgg`. -/
theorem C1_score_two_pass (g a : Word)
    (hg0 : ∀ y ∈ g, y ≠ CROSSED_OUT) (ha0 : ∀ y ∈ a, y ≠ CROSSED_OUT)
    (hlen : g.length = a.length) :
    score g a = scoreSpec g a ∧
    score [115, 105, 108, 108, 121] [104, 111, 116, 101, 108] =
      [98, 98, 121, 98, 98] ∧
    score [115, 105, 108, 108, 121] [100, 97, 105, 108, 121] =
      [98, 121, 98, 103, 103] :=
  ⟨(scoreSpec_eq_score g a hg0 ha0 hlen).symm, rfl, rfl⟩

theorem C1_score_two_pass_witness :
    (∀ y ∈ ([115, 105, 108, 108, 121] : Word), y ≠ CROSSED_OUT) ∧
    score [115, 105, 108, 108, 121] [104, 111, 116, 101, 108] =
      scoreSpec [115, 105, 108, 108, 121] [104, 111, 116, 101, 108] :=
  ⟨by decide, (C1_score_two_pass [115, 105, 108, 108, 121] [104, 111, 116, 101, 108]
    (by decide) (by decide) (by decide)).1⟩

/-- C2: ties on `total_guesses` are broken by the candidate list's iteration
order: if the `i`-th successful candidate attains the minimum and every
earlier candidate is strictly worse — in particular when several candidates
tie at the minimum and `i` is the first of them — `solve` returns exactly
that candidate. -/
theorem C2_tie_break_first (params : Params) (hashOrder : List Colors → List Colors)
    (depth : Nat) (guesses : List Word) (a b : Word) (rest : List Word)
    (hd : depth < 7) (ts : List Tree)
    (hc : candidateResults params hashOrder depth guesses (a :: b :: rest) = Except.ok ts)
    (i : Nat) (hi : i < ts.length)
    (hmin : ∀ (j : Nat) (hj : j < ts.length),
      (ts.get ⟨i, hi⟩).total_guesses ≤ (ts.get ⟨j, hj⟩).total_guesses)
    (hfirst : ∀ (j : Nat) (hj : j < ts.length), j < i →
      (ts.get ⟨i, hi⟩).total_guesses < (ts.get ⟨j, hj⟩).total_guesses) :
    solve params hashOrder depth guesses (a :: b :: rest) =
      Except.ok (some (ts.get ⟨i, hi⟩)) := by
  have hsolve : solve params hashOrder depth guesses (a :: b :: rest) =
      Except.ok (minByTotal ts) := by
    rw [solve_eq_min params hashOrder depth guesses a b rest hd, hc]
  rw [hsolve, minByTotal_argmin_first ts i hi hmin hfirst]

set_option maxRecDepth 10000 in
theorem C2_tie_break_first_witness :
    candidateResults params0 id 0 [wordA, wordB] [wordA, wordB] =
      Except.ok [treeA, treeB] ∧
    treeA.total_guesses = treeB.total_guesses ∧
    solve params0 id 0 [wordA, wordB] [wordA, wordB] = Except.ok (some treeA) :=
  ⟨rfl, rfl, C2_tie_break_first params0 id 0 [wordA, wordB] wordA wordB []
    (by decide) [treeA, treeB] rfl 0 (by decide) (by decide) (by decide)⟩

/-- C3: `solve` panics on an empty answer pool (a distinct failure), returns
a successful result — no panic — on every well-formed non-empty pool, and at
an internal node answers `some` exactly when the explored candidates contain
a satisfying strategy, i.e. when the list of successful candidate trees is
non-empty. -/
theorem C3_result_ok (params : Params) (hashOrder : List Colors → List Colors)
    (depth : Nat) (guesses pool : List Word)
    (hadm : Admissible hashOrder) (hg : guesses ≠ []) (hn : 1 ≤ params.n_guesses)
    (hs : StartOK params) :
    (pool = [] → solve params hashOrder depth guesses pool = Except.error ()) ∧
    (pool ≠ [] → ∃ r, solve params hashOrder depth guesses pool = Except.ok r) ∧
    (∀ a b rest, pool = a :: b :: rest → depth < 7 →
      ∀ ts, candidateResults params hashOrder depth guesses pool = Except.ok ts →
        ((∃ t, solve params hashOrder depth guesses pool = Except.ok (some t)) ↔
          ts ≠ [])) := by
  refine ⟨?_, ?_, ?_⟩
  · intro h
    subst h
    exact solveF_succ_empty 7 params hashOrder depth guesses
  · intro h
    exact solveF_isOk 8 params hashOrder depth guesses pool hadm h hg hn hs
      (by omega) (by omega)
  · intro a b rest hpool hd ts hc
    subst hpool
    have hsolve : solve params hashOrder depth guesses (a :: b :: rest) =
        Except.ok (minByTotal ts) := by
      rw [solve_eq_min params hashOrder depth guesses a b rest hd, hc]
    rw [hsolve]
    constructor
    · rintro ⟨t, ht⟩ hnil
      subst hnil
      simp only [Except.ok.injEq] at ht
      rw [(minByTotal_none_iff []).2 rfl] at ht
      exact Option.noConfusion ht
    · intro hne
      cases hm : minByTotal ts with
      | none => exact absurd ((minByTotal_none_iff ts).1 hm) hne
      | some t => exact ⟨t, rfl⟩

theorem C3_result_ok_witness :
    Admissible (id : List Colors → List Colors) ∧
    (([wordA, wordB] : List Word) = [] →
      solve params0 id 0 [wordA, wordB] [wordA, wordB] = Except.error ()) ∧
    (([wordA, wordB] : List Word) ≠ [] →
      ∃ r, solve params0 id 0 [wordA, wordB] [wordA, wordB] = Except.ok r) ∧
    (∀ a b rest, ([wordA, wordB] : List Word) = a :: b :: rest → 0 < 7 →
      ∀ ts, candidateResults params0 id 0 [wordA, wordB] [wordA, wordB] =
          Except.ok ts →
        ((∃ t, solve params0 id 0 [wordA, wordB] [wordA, wordB] =
            Except.ok (some t)) ↔ ts ≠ [])) :=
  ⟨fun l => List.Perm.refl l,
    C3_result_ok params0 id 0 [wordA, wordB] [wordA, wordB]
      (fun l => List.Perm.refl l) (by decide) (by decide) (Or.inl rfl)⟩

set_option maxRecDepth 10000 in
/-- C4 counterexample: the identity and the reversed `HashMap` iteration
orders are both admissible, yet `solve` returns trees whose serialized
root-to-leaf enumerations (`Tree.write`) differ — two runs with identical
inputs and parameters need not produce bit-identical enumerations, because
the `HashMap` iteration order is not fixed across runs. -/
theorem C4_determinism_counterexample :
    Admissible (id : List Colors → List Colors) ∧ Admissible List.reverse ∧
    (okD none (solve params0 id 0 [wordA, wordB] [wordA, wordB])).map Tree.write ≠
    (okD none (solve params0 List.reverse 0 [wordA, wordB] [wordA, wordB])).map
      Tree.write := by
  refine ⟨fun l => List.Perm.refl l, fun l => List.reverse_perm l, ?_⟩
  have h1 : solve params0 id 0 [wordA, wordB] [wordA, wordB] =
      Except.ok (some treeA) := rfl
  have h2 : solve params0 List.reverse 0 [wordA, wordB] [wordA, wordB] =
      Except.ok (some treeARev) := rfl
  rw [h1, h2]
  simp only [okD, Option.map, treeA, treeARev, Tree.write_node, Tree.write_leaf,
    List.flatMap_cons, List.flatMap_nil, List.map_cons, List.map_nil,
    List.isEmpty_cons, List.append_nil]
  decide

/-- C4 (amended): the search is deterministic up to the `HashMap` iteration
order.  For any two admissible orders the two runs panic together, answer
`some`/`none` together, and when both return trees the trees are equal as
feedback-keyed mappings: same root guess, same `total_guesses` and
`max_guesses` at every level, and serialized enumerations equal as
multisets of root-to-leaf lines — only the enumeration ORDER may differ. -/
theorem C4_determinism_up_to_order (params : Params)
    (hashOrder1 hashOrder2 : List Colors → List Colors)
    (h1 : Admissible hashOrder1) (h2 : Admissible hashOrder2)
    (depth : Nat) (guesses pool : List Word) :
    ExceptRel OptTreeEquiv (solve params hashOrder1 depth guesses pool)
      (solve params hashOrder2 depth guesses pool) ∧
    (∀ t1 t2, solve params hashOrder1 depth guesses pool = Except.ok (some t1) →
      solve params hashOrder2 depth guesses pool = Except.ok (some t2) →
      t1.guess = t2.guess ∧ t1.total_guesses = t2.total_guesses ∧
      t1.max_guesses = t2.max_guesses ∧ (t1.write).Perm (t2.write)) := by
  have hrel : ExceptRel OptTreeEquiv (solve params hashOrder1 depth guesses pool)
      (solve params hashOrder2 depth guesses pool) :=
    solveF_rel 8 params hashOrder1 hashOrder2 h1 h2 depth guesses pool
  refine ⟨hrel, ?_⟩
  intro t1 t2 ht1 ht2
  rw [ht1, ht2] at hrel
  have hteq : TEquiv t1 t2 := hrel
  exact ⟨TEquiv_guess hteq, TEquiv_total hteq, TEquiv_max hteq,
    TEquiv_write_perm hteq⟩

theorem C4_determinism_up_to_order_witness :
    Admissible (id : List Colors → List Colors) ∧ Admissible List.reverse ∧
    (ExceptRel OptTreeEquiv (solve params0 id 0 [wordA, wordB] [wordA, wordB])
      (solve params0 List.reverse 0 [wordA, wordB] [wordA, wordB]) ∧
    (∀ t1 t2,
      solve params0 id 0 [wordA, wordB] [wordA, wordB] = Except.ok (some t1) →
      solve params0 List.reverse 0 [wordA, wordB] [wordA, wordB] =
        Except.ok (some t2) →
      t1.guess = t2.guess ∧ t1.total_guesses = t2.total_guesses ∧
      t1.max_guesses = t2.max_guesses ∧ (t1.write).Perm (t2.write))) :=
  ⟨fun l => List.Perm.refl l, fun l => List.reverse_perm l,
    C4_determinism_up_to_order params0 id List.reverse
      (fun l => List.Perm.refl l) (fun l => List.reverse_perm l)
      0 [wordA, wordB] [wordA, wordB]⟩

/-- C5: a tree returned by `solve` at depth 0 has `max_guesses` at most 7
and no serialized root-to-leaf line longer than 7 guesses (6 additional
guesses after the first), and every call at depth ≥ 7 on a non-empty pool
returns `none` rather than a tree. -/
theorem C5_depth_bound (params : Params) (hashOrder : List Colors → List Colors)
    (guesses pool : List Word) (t : Tree) (hadm : Admissible hashOrder)
    (h : solve params hashOrder 0 guesses pool = Except.ok (some t)) :
    t.max_guesses ≤ 7 ∧ (∀ line ∈ t.write, line.length ≤ 7) ∧
    (∀ depth, 7 ≤ depth → ∀ pool2 : List Word, pool2 ≠ [] →
      solve params hashOrder depth guesses pool2 = Except.ok none) := by
  have hp := solveF_produced 8 params hashOrder 0 guesses pool t hadm h
  refine ⟨?_, ?_, ?_⟩
  · have := produced_max_le hp
    omega
  · intro line hl
    have := produced_write_len hp line hl
    omega
  · intro depth hdep pool2 hne
    cases pool2 with
    | nil => exact absurd rfl hne
    | cons x xs =>
      exact solveF_succ_depth 7 params hashOrder depth guesses (x :: xs)
        (by simp) hdep

set_option maxRecDepth 10000 in
theorem C5_depth_bound_witness :
    Admissible (id : List Colors → List Colors) ∧
    solve params0 id 0 [wordA, wordB] [wordA, wordB] = Except.ok (some treeA) ∧
    (treeA.max_guesses ≤ 7 ∧ (∀ line ∈ treeA.write, line.length ≤ 7) ∧
    (∀ depth, 7 ≤ depth → ∀ pool2 : List Word, pool2 ≠ [] →
      solve params0 id depth [wordA, wordB] pool2 = Except.ok none)) :=
  ⟨fun l => List.Perm.refl l, rfl,
    C5_depth_bound params0 id [wordA, wordB] [wordA, wordB] treeA
      (fun l => List.Perm.refl l) rfl⟩

/-- C6: every tree `solve` returns satisfies the statistics invariant: a
leaf carries `total_guesses = max_guesses = 1`; an internal node has
`max_guesses = 1 +` the maximum of its children's `max_guesses` and
`total_guesses = |pool| +` the sum of `total_guesses` over the children
other than the all-Exact one, recursively on the feedback groups. -/
theorem C6_stats_invariant (params : Params)
    (hashOrder : List Colors → List Colors) (depth : Nat)
    (guesses pool : List Word) (t : Tree) (hadm : Admissible hashOrder)
    (h : solve params hashOrder depth guesses pool = Except.ok (some t)) :
    StatsOK pool t :=
  produced_statsOK (solveF_produced 8 params hashOrder depth guesses pool t hadm h)

set_option maxRecDepth 10000 in
theorem C6_stats_invariant_witness :
    Admissible (id : List Colors → List Colors) ∧
    solve params0 id 0 [wordA, wordB] [wordA, wordB] = Except.ok (some treeA) ∧
    StatsOK [wordA, wordB] treeA :=
  ⟨fun l => List.Perm.refl l, rfl,
    C6_stats_invariant params0 id 0 [wordA, wordB] [wordA, wordB] treeA
      (fun l => List.Perm.refl l) rfl⟩

/-- C7: the ranker's cost for a guess is (sum of the sizes of the feedback
groups of the pool, minus the size of the all-Exact group) divided by the
number of distinct groups — the distinct feedbacks being exactly the scores
attained on the pool, without duplicates; guesses are ordered by ascending
cost with ties broken by the words' lexicographic symbol order, the ranked
list is a permutation of the guess list, and (absent a starting word) the
engine keeps only its first `n_guesses` entries. -/
theorem C7_ranker_order (params : Params) (depth : Nat)
    (guesses answers : List Word) (hs : params.starting_word = none) :
    (∀ g, rankCost answers g = mkRat
      ((((firstOccs (answers.map (score g))).map
        (fun c => (answers.filter (fun a => score g a = c)).length)).sum
        - (answers.filter (fun a => score g a = green5)).length : Nat))
      (firstOccs (answers.map (score g))).length) ∧
    (∀ g, (firstOccs (answers.map (score g))).Nodup ∧
      ∀ c, c ∈ firstOccs (answers.map (score g)) ↔ ∃ a ∈ answers, score g a = c) ∧
    (rankedGuesses guesses answers).Perm guesses ∧
    (rankedGuesses guesses answers).Pairwise (fun g1 g2 =>
      rankCost answers g1 < rankCost answers g2 ∨
      (rankCost answers g1 = rankCost answers g2 ∧ wordLE g1 g2 = true)) ∧
    topGuesses params depth guesses answers =
      Except.ok ((rankedGuesses guesses answers).take params.n_guesses) := by
  refine ⟨?_, ?_, rankedGuesses_perm guesses answers,
    rankedGuesses_sorted guesses answers,
    topGuesses_take params depth guesses answers hs⟩
  · intro g
    have hmap : (firstOccs (answers.map (score g))).map
        (fun c => (answers.map (score g)).count c) =
        (firstOccs (answers.map (score g))).map
        (fun c => (answers.filter (fun a => score g a = c)).length) :=
      List.map_congr_left (fun c _ => count_map_score g answers c)
    simp only [rankCost, hmap, count_map_score g answers green5]
  · intro g
    refine ⟨nodup_firstOccs _, ?_⟩
    intro c
    rw [mem_firstOccs, List.mem_map]

theorem C7_ranker_order_witness :
    params0.starting_word = none ∧
    (rankedGuesses [wordA, wordB] [wordA, wordB]).Perm [wordA, wordB] ∧
    topGuesses params0 0 [wordA, wordB] [wordA, wordB] =
      Except.ok ((rankedGuesses [wordA, wordB] [wordA, wordB]).take
        params0.n_guesses) :=
  ⟨rfl,
    (C7_ranker_order params0 0 [wordA, wordB] [wordA, wordB] rfl).2.2.1,
    (C7_ranker_order params0 0 [wordA, wordB] [wordA, wordB] rfl).2.2.2.2⟩

/-- C8: on five-letter words the scorer labels each of the 5 positions with
exactly one of Absent (98), Present (121) or Exact (103), and for every
letter the number of positions labeled Exact or Present for that letter
never exceeds the number of occurrences of that letter in the answer. -/
theorem C8_label_correctness (g a : Word) (hg : g.length = 5)
    (ha : a.length = 5) :
    (score g a).length = 5 ∧
    (∀ x ∈ score g a, x = 98 ∨ x = 121 ∨ x = 103) ∧
    (∀ x, x ≠ CROSSED_OUT → labelCount x g (score g a) ≤ a.count x) := by
  refine ⟨?_, score_colors_cases g a, ?_⟩
  · rw [score_length g a (by omega)]
    exact hg
  · intro x hx
    exact labelCount_le_count g a x hx (by omega)

theorem C8_label_correctness_witness :
    ([115, 105, 108, 108, 121] : Word).length = 5 ∧
    (score [115, 105, 108, 108, 121] [104, 111, 116, 101, 108]).length = 5 ∧
    (∀ x ∈ score [115, 105, 108, 108, 121] [104, 111, 116, 101, 108],
      x = 98 ∨ x = 121 ∨ x = 103) ∧
    (∀ x, x ≠ CROSSED_OUT →
      labelCount x [115, 105, 108, 108, 121]
        (score [115, 105, 108, 108, 121] [104, 111, 116, 101, 108]) ≤
      ([104, 111, 116, 101, 108] : Word).count x) :=
  ⟨rfl, C8_label_correctness [115, 105, 108, 108, 121] [104, 111, 116, 101, 108]
    (by decide) (by decide)⟩

/-- C9: below the depth bound, `solve` on a singleton answer pool returns
the leaf on that one answer: its guess is the answer, `total_guesses =
max_guesses = 1`, and the children mapping is empty. -/
theorem C9_singleton_leaf (params : Params)
    (hashOrder : List Colors → List Colors) (depth : Nat)
    (guesses : List Word) (a : Word) (hd : depth < 7) :
    solve params hashOrder depth guesses [a] =
      Except.ok (some (Tree.node a 1 1 [])) :=
  solveF_succ_single 7 params hashOrder depth guesses a hd

theorem C9_singleton_leaf_witness :
    (3 : Nat) < 7 ∧
    solve params0 id 3 [wordA, wordB] [wordB] =
      Except.ok (some (Tree.node wordB 1 1 [])) :=
  ⟨by decide, C9_singleton_leaf params0 id 3 [wordA, wordB] wordB (by decide)⟩

/-- C10: whenever the guess chosen for a duplicate-free pool of at least two
five-letter answers is itself one of the answers, the returned node's
children contain an all-Exact entry whose subtree is a leaf carrying the
same guess, and the serialized output contains the root-to-leaf line that
lists that guess twice in succession. -/
theorem C10_green_child (params : Params)
    (hashOrder : List Colors → List Colors) (depth : Nat)
    (guesses pool : List Word) (t : Tree) (hadm : Admissible hashOrder)
    (h : solve params hashOrder depth guesses pool = Except.ok (some t))
    (hnd : pool.Nodup) (hlen : 2 ≤ pool.length)
    (h5 : ∀ w ∈ pool, w.length = 5) (hg : t.guess ∈ pool) :
    (∃ p ∈ t.children, p.1 = green5 ∧ p.2 = Tree.leaf t.guess) ∧
    [t.guess, t.guess] ∈ t.write :=
  produced_green_child
    (solveF_produced 8 params hashOrder depth guesses pool t hadm h)
    hnd hlen h5 hg

set_option maxRecDepth 10000 in
theorem C10_green_child_witness :
    solve params0 id 0 [wordA, wordB] [wordA, wordB] = Except.ok (some treeA) ∧
    treeA.guess ∈ ([wordA, wordB] : List Word) ∧
    ((∃ p ∈ treeA.children, p.1 = green5 ∧ p.2 = Tree.leaf treeA.guess) ∧
      [treeA.guess, treeA.guess] ∈ treeA.write) :=
  ⟨rfl, by decide,
    C10_green_child params0 id 0 [wordA, wordB] [wordA, wordB] treeA
      (fun l => List.Perm.refl l) rfl (by decide) (by decide) (by decide)
      (by decide)⟩

end Wordle
